import Mathlib

/-!
Verification development for the `job_queue` repository: a shallow embedding
of the SQLite-backed ack queue (`sqliteack_queue.py`), the input/output queue
join layer (`io_queues.py`) and the DAG driver (`job_queue.py`), together
with theorems settling the frozen claims about the natural-language spec.

Strings from the Python source are embedded as lists of characters; SQL
tables are embedded as lists of rows; SQL NULL is the `Value.null`
constructor; wall-clock time is an integer tick threaded through the
operations that touch the database connection.
-/

/-- Python strings, embedded as character lists. -/
abbrev Str := List Char

-- Ack statuses from `AckStatus` in sqliteack_queue.py (stored as integers
-- in the `status` column; the string literals in the source are spliced into
-- SQL where they compare as integers).
namespace AckStatus

def inited : Nat := 0
def ready : Nat := 1
def unack : Nat := 2
def acked : Nat := 5
def ackFailed : Nat := 9
def ackDone : Nat := 17

end AckStatus

/-- A SQL cell / Python record value.  `null` is SQL NULL (Python `None`);
`real` carries an opaque integer token standing for the float payload (no
claim depends on float arithmetic); `dict` is a nested mapping, whose
contents the queue never inspects (it only rejects it). -/
inductive Value where
  | null : Value
  | str (s : Str) : Value
  | int (n : Int) : Value
  | real (tok : Int) : Value
  | list (xs : List Value) : Value
  | dict : Value

mutual

def valueDecEq : (a b : Value) → Decidable (a = b)
  | .null, .null => isTrue rfl
  | .str s, .str t =>
    if h : s = t then isTrue (by rw [h]) else isFalse (fun hh => by cases hh; exact h rfl)
  | .int m, .int n =>
    if h : m = n then isTrue (by rw [h]) else isFalse (fun hh => by cases hh; exact h rfl)
  | .real m, .real n =>
    if h : m = n then isTrue (by rw [h]) else isFalse (fun hh => by cases hh; exact h rfl)
  | .dict, .dict => isTrue rfl
  | .list xs, .list ys =>
    match valueListDecEq xs ys with
    | isTrue h => isTrue (by rw [h])
    | isFalse h => isFalse (fun hh => by cases hh; exact h rfl)
  | .null, .str _ => isFalse (fun h => Value.noConfusion h)
  | .null, .int _ => isFalse (fun h => Value.noConfusion h)
  | .null, .real _ => isFalse (fun h => Value.noConfusion h)
  | .null, .list _ => isFalse (fun h => Value.noConfusion h)
  | .null, .dict => isFalse (fun h => Value.noConfusion h)
  | .str _, .null => isFalse (fun h => Value.noConfusion h)
  | .str _, .int _ => isFalse (fun h => Value.noConfusion h)
  | .str _, .real _ => isFalse (fun h => Value.noConfusion h)
  | .str _, .list _ => isFalse (fun h => Value.noConfusion h)
  | .str _, .dict => isFalse (fun h => Value.noConfusion h)
  | .int _, .null => isFalse (fun h => Value.noConfusion h)
  | .int _, .str _ => isFalse (fun h => Value.noConfusion h)
  | .int _, .real _ => isFalse (fun h => Value.noConfusion h)
  | .int _, .list _ => isFalse (fun h => Value.noConfusion h)
  | .int _, .dict => isFalse (fun h => Value.noConfusion h)
  | .real _, .null => isFalse (fun h => Value.noConfusion h)
  | .real _, .str _ => isFalse (fun h => Value.noConfusion h)
  | .real _, .int _ => isFalse (fun h => Value.noConfusion h)
  | .real _, .list _ => isFalse (fun h => Value.noConfusion h)
  | .real _, .dict => isFalse (fun h => Value.noConfusion h)
  | .list _, .null => isFalse (fun h => Value.noConfusion h)
  | .list _, .str _ => isFalse (fun h => Value.noConfusion h)
  | .list _, .int _ => isFalse (fun h => Value.noConfusion h)
  | .list _, .real _ => isFalse (fun h => Value.noConfusion h)
  | .list _, .dict => isFalse (fun h => Value.noConfusion h)
  | .dict, .null => isFalse (fun h => Value.noConfusion h)
  | .dict, .str _ => isFalse (fun h => Value.noConfusion h)
  | .dict, .int _ => isFalse (fun h => Value.noConfusion h)
  | .dict, .real _ => isFalse (fun h => Value.noConfusion h)
  | .dict, .list _ => isFalse (fun h => Value.noConfusion h)

def valueListDecEq : (as bs : List Value) → Decidable (as = bs)
  | [], [] => isTrue rfl
  | [], _ :: _ => isFalse (fun h => List.noConfusion h)
  | _ :: _, [] => isFalse (fun h => List.noConfusion h)
  | a :: as, b :: bs =>
    match valueDecEq a b with
    | isFalse h => isFalse (fun hh => by cases hh; exact h rfl)
    | isTrue h1 =>
      match valueListDecEq as bs with
      | isTrue h2 => isTrue (by rw [h1, h2])
      | isFalse h => isFalse (fun hh => by cases hh; exact h rfl)

end

instance : DecidableEq Value := valueDecEq

/-- A Python record: an insertion-ordered mapping from field names to values. -/
abbrev Record := List (Str × Value)

/-- Lookup of the first binding of a key in an assoc list (Python dict read). -/
def alookup {β : Type} (k : Str) : List (Str × β) → Option β
  | [] => none
  | (k', v) :: rest => if k' = k then some v else alookup k rest

/-- One row of an ack-queue table: `_id`, `timestamp`, `status`, then the
user columns (`fields` holds the values of the table's user columns; a
column the row was inserted before, or an explicit NULL, is `Value.null`
and a column name absent from `fields` also reads as NULL). -/
structure AQRow where
  key : Nat
  timestamp : Int
  status : Nat
  fields : List (Str × Value)
deriving DecidableEq

/-- The state of one `SQLiteAckQueue`: the table rows, the in-memory user
column list (`self.columns`), the AUTOINCREMENT sequence, and the
construction parameters together with the connection / sweep bookkeeping
(`_con is None`, `last_timeout_application`). -/
structure AQ where
  rows : List AQRow
  columns : List Str
  nextKey : Nat
  uniqueColumn : Option Str
  timeout : Int
  lastTimeout : Int
  conOpen : Bool
  deleteOnAck : Bool
deriving DecidableEq

/-- `SELECT COUNT(*) FROM t` — `SQLiteAckQueue._count`. -/
def countAQ (q : AQ) : Nat := q.rows.length

/-- `_SQL_FREE`: rows with `status < UNACK`. -/
def freeAQ (q : AQ) : Nat := q.rows.countP (fun r => decide (r.status < AckStatus.unack))

/-- `_SQL_DONE`: rows with `status > UNACK`. -/
def doneAQ (q : AQ) : Nat := q.rows.countP (fun r => decide (AckStatus.unack < r.status))

/-- `_SQL_ACTIVE`: rows with `UNACK <= status < ACK_FAILED`. -/
def activeAQ (q : AQ) : Nat :=
  q.rows.countP (fun r => decide (AckStatus.unack ≤ r.status ∧ r.status < AckStatus.ackFailed))

/-- Rows counted by both `active` and `done`: status strictly between
`UNACK` and `ACK_FAILED` (e.g. `ACKED = 5`). -/
def overlapAQ (q : AQ) : Nat :=
  q.rows.countP (fun r => decide (AckStatus.unack < r.status ∧ r.status < AckStatus.ackFailed))

/-- C2 (amended): the counters of `SQLiteAckQueue` satisfy
`count + |rows with UNACK < status < ACK_FAILED| = free + active + done`;
the claimed partition `count = free + active + done` holds exactly when no
row (such as an `ACKED = 5` row) has a status strictly between `UNACK` and
`ACK_FAILED`, because such a row is counted by both `active` and `done`. -/
theorem count_partition_identity (q : AQ) :
    countAQ q + overlapAQ q = freeAQ q + activeAQ q + doneAQ q := by
  unfold countAQ overlapAQ freeAQ activeAQ doneAQ
  induction q.rows with
  | nil => simp
  | cons r t ih =>
    simp only [List.countP_cons, List.length_cons, decide_eq_true_eq]
    simp only [AckStatus.unack, AckStatus.ackFailed] at *
    split_ifs <;> omega

/-- A concrete queue holding a single `ACKED` row. -/
def ackedOnlyQ : AQ :=
  { rows := [{ key := 1, timestamp := 0, status := AckStatus.acked, fields := [] }]
    columns := []
    nextKey := 2
    uniqueColumn := none
    timeout := 300
    lastTimeout := 0
    conOpen := true
    deleteOnAck := false }

/-- C2 counterexample: on a queue whose only row is `ACKED` (status 5),
`count() = 1` but `free() + active() + done() = 2`, so the claimed exact
partition `count == free + active + done` is false. -/
theorem count_partition_counterexample :
    countAQ ackedOnlyQ = 1 ∧
    freeAQ ackedOnlyQ + activeAQ ackedOnlyQ + doneAQ ackedOnlyQ = 2 ∧
    countAQ ackedOnlyQ ≠ freeAQ ackedOnlyQ + activeAQ ackedOnlyQ + doneAQ ackedOnlyQ := by
  decide

/-- `SQLiteAckQueue.apply_timeout`: does nothing when the connection has not
been opened, or when less than `timeout` seconds elapsed since the last
sweep; otherwise runs `_SQL_TIMEOUT`, rewriting `status = UNACK` rows whose
`timestamp` is older than `now - timeout` to `READY`, and records the sweep
time. -/
def applyTimeout (q : AQ) (now : Int) : AQ :=
  if q.conOpen = false then q
  else if now - q.lastTimeout < q.timeout then q
  else
    { q with
      rows := q.rows.map (fun r =>
        if r.status = AckStatus.unack ∧ r.timestamp < now - q.timeout
        then { r with status := AckStatus.ready } else r)
      lastTimeout := now }

/-- Pointwise `Forall₂` between a list and its image under a map. -/
theorem forall2_self_map {α : Type} (R : α → α → Prop) (f : α → α) (l : List α)
    (h : ∀ x ∈ l, R x (f x)) : List.Forall₂ R l (l.map f) := by
  induction l with
  | nil => simp
  | cons a t ih =>
    exact List.Forall₂.cons (h a (List.mem_cons_self a t))
      (ih (fun x hx => h x (List.mem_cons_of_mem a hx)))

/-- C7: timeout sweep safety.  `apply_timeout` is the identity when the
connection is not open (and when called again within the timeout window);
row for row, it never changes a row whose status is not `UNACK`, and the
only change it ever makes is `UNACK → READY` on a row whose timestamp is
older than `now - timeout`. -/
theorem apply_timeout_safety (q : AQ) (now : Int) :
    (q.conOpen = false → applyTimeout q now = q) ∧
    (now - q.lastTimeout < q.timeout → applyTimeout q now = q) ∧
    List.Forall₂ (fun r r' =>
        (r.status ≠ AckStatus.unack → r' = r) ∧
        (r' = r ∨ (r.status = AckStatus.unack ∧ r.timestamp < now - q.timeout ∧
          r' = { r with status := AckStatus.ready })))
      q.rows (applyTimeout q now).rows := by
  unfold applyTimeout
  by_cases hcon : q.conOpen = false
  · refine ⟨fun _ => by simp [hcon], fun _ => by simp [hcon], ?_⟩
    simp only [hcon, if_true]
    exact List.forall₂_same.mpr (fun r _ => ⟨fun _ => rfl, Or.inl rfl⟩)
  · by_cases htime : now - q.lastTimeout < q.timeout
    · refine ⟨fun h => absurd h hcon, fun _ => by simp [hcon, htime], ?_⟩
      simp only [hcon, htime, if_false, if_true]
      exact List.forall₂_same.mpr (fun r _ => ⟨fun _ => rfl, Or.inl rfl⟩)
    · refine ⟨fun h => absurd h hcon, fun h => absurd h htime, ?_⟩
      simp only [hcon, htime, if_false]
      refine forall2_self_map _ _ _ (fun r _ => ?_)
      by_cases hr : r.status = AckStatus.unack ∧ r.timestamp < now - q.timeout
      · exact ⟨fun hne => absurd hr.1 hne, Or.inr ⟨hr.1, hr.2, by simp [hr]⟩⟩
      · exact ⟨fun _ => by simp [hr], Or.inl (by simp [hr])⟩

/-- A queue whose connection has not been opened yet. -/
def unopenedQ : AQ :=
  { rows := [{ key := 1, timestamp := 0, status := AckStatus.unack, fields := [] }]
    columns := []
    nextKey := 2
    uniqueColumn := none
    timeout := 300
    lastTimeout := 0
    conOpen := false
    deleteOnAck := false }

/-- C7 witness: on a concrete queue whose connection is unopened, the sweep
is the identity even though an old `UNACK` row is present. -/
theorem apply_timeout_safety_witness : applyTimeout unopenedQ 10000 = unopenedQ :=
  (apply_timeout_safety unopenedQ 10000).1 rfl

/-- Errors surfaced by the queue operations: `ValueError("Dicts cannot be
empty")`, `ValueError("Cannot have nested dictionaries")`, the
`AssertionError` for extra columns in `reorder_to_match_table_schema`, and
the `KeyError("Could not update all keys")` of `updates`. -/
inductive QErr where
  | emptyDict
  | nestedDict
  | extraColumns
  | missingKeys
  | nullInArray
  | malformedInsert
  | unbindableValue
deriving DecidableEq

instance {ε α : Type} [DecidableEq ε] [DecidableEq α] : DecidableEq (Except ε α) :=
  fun a b =>
    match a, b with
    | .ok x, .ok y =>
      if h : x = y then isTrue (by rw [h]) else isFalse (fun hh => by cases hh; exact h rfl)
    | .error e, .error f =>
      if h : e = f then isTrue (by rw [h]) else isFalse (fun hh => by cases hh; exact h rfl)
    | .ok _, .error _ => isFalse (fun h => Except.noConfusion h)
    | .error _, .ok _ => isFalse (fun h => Except.noConfusion h)

/-- The number of table rows hit by `WHERE {key_column} IN ({indices})`,
i.e. the number of rows the bulk UPDATE of `updates` returns. -/
def matchedCount (q : AQ) (keys : List Nat) : Nat :=
  q.rows.countP (fun r => decide (r.key ∈ keys))

/-- `SQLiteAckQueue.updates`: bulk `UPDATE ... SET status ... WHERE key IN
(keys) RETURNING *`; raises `KeyError` when the number of returned rows
differs from `len(keys)`. -/
def updatesAQ (q : AQ) (keys : List Nat) (status : Nat) : Except QErr AQ :=
  if matchedCount q keys ≠ keys.length then .error .missingKeys
  else .ok { q with rows := q.rows.map (fun r =>
    if r.key ∈ keys then { r with status := status } else r) }

/-- `SQLiteAckQueue.acks`: `updates(keys, status)` followed, when
`delete_on_ack` is set, by `delete(keys)`. -/
def acksAQ (q : AQ) (keys : List Nat) (status : Nat) : Except QErr AQ :=
  match updatesAQ q keys status with
  | .error e => .error e
  | .ok q' =>
    .ok (if q.deleteOnAck then
      { q' with rows := q'.rows.filter (fun r => decide (r.key ∉ keys)) } else q')

/-- Counting rows whose key lies in `keys` is counting the intersection of
the key sets, when the row keys are distinct. -/
theorem countP_mem_eq_inter_card (rk keys : List Nat) (h : rk.Nodup) :
    rk.countP (fun k => decide (k ∈ keys)) = (rk.toFinset ∩ keys.toFinset).card := by
  induction rk with
  | nil => simp
  | cons a t ih =>
    rcases List.nodup_cons.mp h with ⟨ha, ht⟩
    rw [List.countP_cons, List.toFinset_cons]
    by_cases hak : a ∈ keys
    · rw [Finset.insert_inter_of_mem (List.mem_toFinset.mpr hak),
        Finset.card_insert_of_not_mem (by simp [ha])]
      simp [hak, ih ht]
    · rw [Finset.insert_inter_of_not_mem (by simp [hak])]
      simp [hak, ih ht]

/-- `matchedCount` as an intersection cardinality. -/
theorem matchedCount_eq (q : AQ) (keys : List Nat)
    (h : (q.rows.map AQRow.key).Nodup) :
    matchedCount q keys = ((q.rows.map AQRow.key).toFinset ∩ keys.toFinset).card := by
  have hmap : matchedCount q keys = (q.rows.map AQRow.key).countP (fun k => decide (k ∈ keys)) := by
    rw [matchedCount, List.countP_map]
    rfl
  rw [hmap, countP_mem_eq_inter_card _ _ h]

/-- A list with a repeated element strictly shrinks under `dedup`. -/
theorem dedup_length_lt_of_not_nodup (l : List Nat) (h : ¬ l.Nodup) :
    l.dedup.length < l.length := by
  rcases Nat.lt_or_ge l.dedup.length l.length with hlt | hge
  · exact hlt
  · exfalso
    have hsub : List.Sublist l.dedup l := List.dedup_sublist l
    have hle : l.dedup.length ≤ l.length := hsub.length_le
    have heq : l.dedup = l := hsub.eq_of_length (le_antisymm hle hge)
    exact h (List.dedup_eq_self.mp heq)

/-- C10: calling `updates` (or `acks`) with a key list containing a
duplicate raises the `KeyError` of `updates` even when every listed key is
present in the table: the `IN`-clause UPDATE touches each row once, so the
returned row count is compared against `len(keys)` counted with the
duplicates. -/
theorem updates_duplicate_keys (q : AQ) (keys : List Nat) (s : Nat)
    (hrk : (q.rows.map AQRow.key).Nodup)
    (hdup : ¬ keys.Nodup)
    (hall : ∀ k ∈ keys, k ∈ q.rows.map AQRow.key) :
    updatesAQ q keys s = .error .missingKeys ∧
    acksAQ q keys AckStatus.acked = .error .missingKeys := by
  have hlt : matchedCount q keys < keys.length := by
    rw [matchedCount_eq q keys hrk]
    calc ((q.rows.map AQRow.key).toFinset ∩ keys.toFinset).card
        ≤ keys.toFinset.card := Finset.card_le_card (Finset.inter_subset_right)
      _ = keys.dedup.length := List.card_toFinset keys
      _ < keys.length := dedup_length_lt_of_not_nodup keys hdup
  have hne : matchedCount q keys ≠ keys.length := Nat.ne_of_lt hlt
  constructor
  · unfold updatesAQ
    simp [hne]
  · unfold acksAQ updatesAQ
    simp [hne]

/-- A queue with two distinct rows, used for the C10 witness. -/
def twoRowQ : AQ :=
  { rows := [{ key := 1, timestamp := 0, status := AckStatus.inited, fields := [] },
             { key := 2, timestamp := 0, status := AckStatus.acked, fields := [] }]
    columns := []
    nextKey := 3
    uniqueColumn := none
    timeout := 300
    lastTimeout := 0
    conOpen := true
    deleteOnAck := false }

/-- C10 witness: on a concrete two-row table, `updates([1,1])` and
`acks([1,1])` raise although key 1 exists. -/
theorem updates_duplicate_keys_witness :
    updatesAQ twoRowQ [1, 1] 5 = .error .missingKeys ∧
    acksAQ twoRowQ [1, 1] AckStatus.acked = .error .missingKeys :=
  updates_duplicate_keys twoRowQ [1, 1] 5 (by decide) (by decide) (by decide)

/-- C8: ack / update error behaviour.  With distinct listed keys and
distinct table keys (and `delete_on_ack` unset), `acks` succeeds silently
and idempotently whenever every listed key is still a row of the table —
whatever the statuses of those rows — and fails with the `KeyError` of
`updates` when some listed key has no row, which happens exactly when the
bulk UPDATE returns fewer rows than `len(keys)`. -/
theorem acks_error_behavior (q : AQ) (keys : List Nat) (s : Nat)
    (hrk : (q.rows.map AQRow.key).Nodup)
    (hk : keys.Nodup)
    (hda : q.deleteOnAck = false) :
    ((∀ k ∈ keys, k ∈ q.rows.map AQRow.key) →
        ∃ q', acksAQ q keys s = .ok q' ∧ acksAQ q' keys s = .ok q') ∧
    ((∃ k ∈ keys, ¬ k ∈ q.rows.map AQRow.key) →
        acksAQ q keys s = .error .missingKeys) ∧
    (acksAQ q keys s = .error .missingKeys ↔ matchedCount q keys < keys.length) := by
  have hcard : keys.toFinset.card = keys.length := by
    rw [List.card_toFinset, List.dedup_eq_self.mpr hk]
  have hmle : matchedCount q keys ≤ keys.length := by
    rw [matchedCount_eq q keys hrk]
    calc ((q.rows.map AQRow.key).toFinset ∩ keys.toFinset).card
        ≤ keys.toFinset.card := Finset.card_le_card Finset.inter_subset_right
      _ = keys.length := hcard
  have hall_imp : (∀ k ∈ keys, k ∈ q.rows.map AQRow.key) →
      matchedCount q keys = keys.length := by
    intro hp
    rw [matchedCount_eq q keys hrk]
    have hsubset : keys.toFinset ⊆ (q.rows.map AQRow.key).toFinset := by
      intro x hx
      exact List.mem_toFinset.mpr (hp x (List.mem_toFinset.mp hx))
    rw [Finset.inter_eq_right.mpr hsubset, hcard]
  have hmiss_imp : (∃ k ∈ keys, ¬ k ∈ q.rows.map AQRow.key) →
      matchedCount q keys < keys.length := by
    rintro ⟨k0, hk0, hk0n⟩
    rw [matchedCount_eq q keys hrk]
    have hss : (q.rows.map AQRow.key).toFinset ∩ keys.toFinset ⊂ keys.toFinset := by
      rw [Finset.ssubset_iff_of_subset Finset.inter_subset_right]
      exact ⟨k0, List.mem_toFinset.mpr hk0, by simp [hk0n]⟩
    calc ((q.rows.map AQRow.key).toFinset ∩ keys.toFinset).card
        < keys.toFinset.card := Finset.card_lt_card hss
      _ = keys.length := hcard
  refine ⟨?_, ?_, ?_⟩
  · intro hp
    have hmeq := hall_imp hp
    refine ⟨{ q with rows := q.rows.map (fun r =>
      if r.key ∈ keys then { r with status := s } else r) }, ?_, ?_⟩
    · unfold acksAQ updatesAQ
      simp [hmeq, hda]
    · have hcount' : (q.rows.map (fun r : AQRow =>
          if r.key ∈ keys then { r with status := s } else r)).countP
          (fun r => decide (r.key ∈ keys)) = keys.length := by
        rw [List.countP_map]
        have hfun : ((fun r : AQRow => decide (r.key ∈ keys)) ∘ (fun r : AQRow =>
            if r.key ∈ keys then { r with status := s } else r)) =
            (fun r : AQRow => decide (r.key ∈ keys)) := by
          funext r
          simp only [Function.comp]
          split <;> rfl
        rw [hfun]
        exact hmeq
      have hmap2 : (q.rows.map (fun r : AQRow =>
          if r.key ∈ keys then { r with status := s } else r)).map (fun r : AQRow =>
          if r.key ∈ keys then { r with status := s } else r) =
          q.rows.map (fun r : AQRow =>
          if r.key ∈ keys then { r with status := s } else r) := by
        rw [List.map_map]
        refine List.map_congr_left (fun r _ => ?_)
        simp only [Function.comp]
        by_cases hr : r.key ∈ keys
        · simp [hr]
        · simp [hr]
      unfold acksAQ updatesAQ
      simp [matchedCount, hcount', hda, hmap2]
  · intro hex
    have hne : matchedCount q keys ≠ keys.length := Nat.ne_of_lt (hmiss_imp hex)
    unfold acksAQ updatesAQ
    simp [hne]
  · constructor
    · intro herr
      by_cases hne : matchedCount q keys ≠ keys.length
      · exact Nat.lt_of_le_of_ne hmle hne
      · exfalso
        unfold acksAQ updatesAQ at herr
        simp [hne] at herr
    · intro hlt
      have hne : matchedCount q keys ≠ keys.length := Nat.ne_of_lt hlt
      unfold acksAQ updatesAQ
      simp [hne]

/-- C8 witness: on a concrete two-row table (one row already `ACKED`),
`acks([1,2])` succeeds and is idempotent. -/
theorem acks_error_behavior_witness :
    ∃ q', acksAQ twoRowQ [1, 2] 7 = .ok q' ∧ acksAQ q' [1, 2] 7 = .ok q' :=
  (acks_error_behavior twoRowQ [1, 2] 7 (by decide) (by decide) rfl).1 (by decide)

/-- Python `str.startswith` on character lists. -/
def startsWithCh : Str → Str → Bool
  | [], _ => true
  | _ :: _, [] => false
  | p :: ps, c :: cs => p = c && startsWithCh ps cs

/-- Python substring containment, `pat in s`. -/
def containsSub (pat : Str) : Str → Bool
  | [] => startsWithCh pat []
  | c :: rest => startsWithCh pat (c :: rest) || containsSub pat rest

/-- Python `key.split('_')` on character lists. -/
def splitCh : Str → List Str
  | [] => [[]]
  | c :: rest =>
    match splitCh rest with
    | [] => [[]]
    | g :: gs => if c = '_' then [] :: g :: gs else (c :: g) :: gs

/-- The decimal digit characters. -/
def digitCh (d : Nat) : Char := Char.ofNat (48 + d)

/-- The decimal digits of `n`, most significant first. -/
def natToDigits (n : Nat) : Str :=
  if _h : n < 10 then [digitCh n]
  else natToDigits (n / 10) ++ [digitCh (n % 10)]
termination_by n
decreasing_by simp_wf; omega

/-- Python `f"{i:04d}"`: decimal digits left-padded with zeros to width 4. -/
def pad4 (n : Nat) : Str :=
  List.replicate (4 - (natToDigits n).length) '0' ++ natToDigits n

/-- Python `int(...)` on a decimal digit string. -/
def parseNat (s : Str) : Nat := s.foldl (fun acc c => acc * 10 + (c.toNat - 48)) 0

/-- The `'_dim_'` marker used by the array flattening. -/
def dimTag : Str := ['_', 'd', 'i', 'm', '_']

/-- The column name `f'{key}_dim_{idim:04d}'` of one array element. -/
def dimKey (k : Str) (i : Nat) : Str := k ++ dimTag ++ pad4 i

/-- Python `enumerate` with a starting index. -/
def pyEnumFrom (m : Nat) : List Value → List (Nat × Value)
  | [] => []
  | x :: xs => (m, x) :: pyEnumFrom (m + 1) xs

/-- `SQLiteAckQueue.flatten_array_columns` on one record: every list value
is expanded, element by element, into `_dim_NNNN` fields; all other fields
pass through in order. -/
def flattenItem (item : Record) : Record :=
  item.flatMap (fun kv =>
    match kv.2 with
    | .list xs => (pyEnumFrom 0 xs).map (fun p => (dimKey kv.1 p.1, p.2))
    | _ => [kv])

/-- `DynamicList.expand`: pad with zeros so that index `i` is in range. -/
def dynExpand (l : List Value) (i : Nat) : List Value :=
  if i + 1 > l.length then l ++ List.replicate (i + 1 - l.length) (Value.int 0) else l

/-- `DynamicList.__setitem__`: expand, then assign. -/
def dynSet (l : List Value) (i : Nat) (v : Value) : List Value :=
  (dynExpand l i).set i v

/-- Ordered-dict update used for the `arrays` dict of
`unflatten_array_columns`: update the entry in place, or append a new entry
built from the empty dynamic list. -/
def updateAssoc (k : Str) (f : List Value → List Value) :
    List (Str × List Value) → List (Str × List Value)
  | [] => [(k, f [])]
  | (k', v) :: rest =>
    if k' = k then (k', f v) :: rest else (k', v) :: updateAssoc k f rest

/-- One iteration of the loop body of `unflatten_array_columns`: a key
containing `'_dim_'` is split on `'_'`, its group is the token before the
first `'_'` and its index the third token; other keys pass through. -/
def unflattenStep (acc : Record × List (Str × List Value)) (kv : Str × Value) :
    Record × List (Str × List Value) :=
  if containsSub dimTag kv.1 then
    updateAssoc ((splitCh kv.1).headD [])
      (fun arr => dynSet arr (parseNat ((splitCh kv.1).getD 2 [])) kv.2) acc.2 |>
      fun ar => (acc.1, ar)
  else
    (acc.1 ++ [kv], acc.2)

/-- `SQLiteAckQueue.unflatten_array_columns` on one record: group the
`_dim_` fields, then append each reconstructed list after the plain
fields; the source's `assert all(x is not None for x in arr)` raises
(`AssertionError`) when any reconstructed array contains a NULL element. -/
def unflattenItem (item : Record) : Except QErr Record :=
  if ((item.foldl unflattenStep ([], [])).2.any
      (fun p => p.2.any (fun x => decide (x = Value.null)))) = true
  then .error .nullInArray
  else .ok ((item.foldl unflattenStep ([], [])).1 ++
    (item.foldl unflattenStep ([], [])).2.map (fun p => (p.1, Value.list p.2)))

/-- Characters of a matched pattern occur in the scanned string. -/
theorem startsWith_mem {p s : Str} (h : startsWithCh p s = true) :
    ∀ c ∈ p, c ∈ s := by
  induction p generalizing s with
  | nil => intro c hc; cases hc
  | cons a p ih =>
    cases s with
    | nil => cases h
    | cons b s =>
      rw [startsWithCh, Bool.and_eq_true, decide_eq_true_eq] at h
      intro c hc
      rcases List.mem_cons.mp hc with hc | hc
      · exact List.mem_cons.mpr (Or.inl (hc.trans h.1))
      · exact List.mem_cons.mpr (Or.inr (ih h.2 c hc))

/-- Characters of a found substring occur in the scanned string. -/
theorem containsSub_mem {pat s : Str} (h : containsSub pat s = true) :
    ∀ c ∈ pat, c ∈ s := by
  induction s with
  | nil =>
    rw [containsSub] at h
    intro c hc
    cases pat with
    | nil => cases hc
    | cons a p => cases h
  | cons b s ih =>
    rw [containsSub, Bool.or_eq_true] at h
    intro c hc
    rcases h with h | h
    · exact startsWith_mem h c hc
    · exact List.mem_cons.mpr (Or.inr (ih h c hc))

/-- An underscore-free key is never taken for a `_dim_` column. -/
theorem containsSub_dimTag_false {k : Str} (h : ¬ '_' ∈ k) :
    containsSub dimTag k = false := by
  rcases hb : containsSub dimTag k with _ | _
  · rfl
  · exact absurd (containsSub_mem hb '_' (by decide)) h

theorem startsWith_append_self (p t : Str) : startsWithCh p (p ++ t) = true := by
  induction p with
  | nil => rfl
  | cons a p ih => simp [startsWithCh, ih]

theorem containsSub_of_startsWith {pat s : Str} (h : startsWithCh pat s = true) :
    containsSub pat s = true := by
  cases s with
  | nil => rw [containsSub]; exact h
  | cons b s => rw [containsSub, Bool.or_eq_true]; exact Or.inl h

theorem containsSub_append_right {pat y : Str} (x : Str)
    (h : containsSub pat y = true) : containsSub pat (x ++ y) = true := by
  induction x with
  | nil => exact h
  | cons a x ih => rw [List.cons_append, containsSub, Bool.or_eq_true]; exact Or.inr ih

/-- Generated `_dim_` keys are detected by the substring scan. -/
theorem containsSub_dimKey (k : Str) (i : Nat) :
    containsSub dimTag (dimKey k i) = true := by
  rw [dimKey, List.append_assoc]
  exact containsSub_append_right k
    (containsSub_of_startsWith (startsWith_append_self dimTag (pad4 i)))

theorem splitCh_ne_nil (s : Str) : splitCh s ≠ [] := by
  induction s with
  | nil => simp [splitCh]
  | cons c rest ih =>
    cases hs : splitCh rest with
    | nil => exact absurd hs ih
    | cons g gs =>
      rw [splitCh, hs]
      by_cases hc : c = '_' <;> simp [hc]

/-- `split('_')` of an underscore-free string is the singleton group. -/
theorem splitCh_no_us {s : Str} (h : ¬ '_' ∈ s) : splitCh s = [s] := by
  induction s with
  | nil => rfl
  | cons c rest ih =>
    have hc : ¬ c = '_' := fun hcu => h (hcu ▸ List.mem_cons_self c rest)
    have hrest : ¬ '_' ∈ rest := fun hm => h (List.mem_cons.mpr (Or.inr hm))
    rw [splitCh, ih hrest]
    simp [hc]

/-- Splitting at the first underscore: the underscore-free part becomes the
first group. -/
theorem splitCh_append_us {a : Str} (b : Str) (ha : ¬ '_' ∈ a) :
    splitCh (a ++ '_' :: b) = a :: splitCh b := by
  induction a with
  | nil =>
    rw [List.nil_append, splitCh]
    cases hs : splitCh b with
    | nil => exact absurd hs (splitCh_ne_nil b)
    | cons g gs => simp
  | cons c a ih =>
    have hc : ¬ c = '_' := fun hcu => ha (hcu ▸ List.mem_cons_self c a)
    have ha' : ¬ '_' ∈ a := fun hm => ha (List.mem_cons.mpr (Or.inr hm))
    rw [List.cons_append, splitCh, ih ha']
    simp [hc]

theorem digitCh_toNat_sub {d : Nat} (h : d < 10) : (digitCh d).toNat - 48 = d := by
  interval_cases d <;> decide

theorem digitCh_ne_us {d : Nat} (h : d < 10) : digitCh d ≠ '_' := by
  interval_cases d <;> decide

theorem natToDigits_no_us (n : Nat) : ¬ '_' ∈ natToDigits n := by
  induction n using Nat.strong_induction_on with
  | _ n ih =>
    rw [natToDigits]
    split
    · intro hm
      rcases List.mem_singleton.mp hm with h
      exact digitCh_ne_us (by omega) h.symm
    · intro hm
      rcases List.mem_append.mp hm with hm | hm
      · exact ih (n / 10) (by omega) hm
      · rcases List.mem_singleton.mp hm with h
        exact digitCh_ne_us (Nat.mod_lt _ (by omega)) h.symm

theorem pad4_no_us (n : Nat) : ¬ '_' ∈ pad4 n := by
  rw [pad4]
  intro hm
  rcases List.mem_append.mp hm with hm | hm
  · exact absurd (List.eq_of_mem_replicate hm) (by decide)
  · exact natToDigits_no_us n hm

theorem parse_foldl_digits (n : Nat) : ∀ acc : Nat,
    (natToDigits n).foldl (fun a c => a * 10 + (c.toNat - 48)) acc =
      acc * 10 ^ (natToDigits n).length + n := by
  induction n using Nat.strong_induction_on with
  | _ n ih =>
    intro acc
    rw [natToDigits]
    split
    · simp only [List.foldl_cons, List.foldl_nil, List.length_cons, List.length_nil]
      rw [digitCh_toNat_sub (by omega)]
      simp [pow_succ]
    · rw [List.foldl_append]
      simp only [List.foldl_cons, List.foldl_nil, List.length_append, List.length_cons,
        List.length_nil]
      rw [ih (n / 10) (by omega) acc]
      rw [digitCh_toNat_sub (Nat.mod_lt _ (by omega))]
      rw [pow_succ, ← Nat.mul_assoc, Nat.add_mul, Nat.add_assoc]
      congr 1
      omega

/-- Python `int` inverts the zero-padded rendering. -/
theorem parse_pad4 (n : Nat) : parseNat (pad4 n) = n := by
  rw [parseNat, pad4, List.foldl_append]
  have hz : ∀ k : Nat, (List.replicate k '0').foldl
      (fun a c => a * 10 + (c.toNat - 48)) 0 = 0 := by
    intro k
    induction k with
    | zero => rfl
    | succ k ihk => simpa [List.replicate_succ] using ihk
  rw [hz]
  have := parse_foldl_digits n 0
  simpa using this

/-- Splitting a generated `_dim_` key recovers the base name as the first
group and the padded index as the third. -/
theorem splitCh_dimKey {k : Str} (i : Nat) (hk : ¬ '_' ∈ k) :
    splitCh (dimKey k i) = [k, ['d', 'i', 'm'], pad4 i] := by
  have h1 : dimKey k i = k ++ '_' :: (['d', 'i', 'm'] ++ '_' :: pad4 i) := by
    rw [dimKey, dimTag]
    simp
  rw [h1, splitCh_append_us _ hk,
    splitCh_append_us _ (by decide), splitCh_no_us (pad4_no_us i)]

theorem alookup_append_left {β : Type} (k : Str) (a b : List (Str × β)) {x : β}
    (h : alookup k a = some x) : alookup k (a ++ b) = some x := by
  induction a with
  | nil => cases h
  | cons p a ih =>
    rw [List.cons_append, alookup]
    rw [alookup] at h
    split at h
    · rw [if_pos (by assumption)]; exact h
    · rw [if_neg (by assumption)]; exact ih h

theorem alookup_append_right {β : Type} (k : Str) (a b : List (Str × β))
    (h : alookup k a = none) : alookup k (a ++ b) = alookup k b := by
  induction a with
  | nil => rfl
  | cons p a ih =>
    rw [List.cons_append, alookup]
    rw [alookup] at h
    split at h
    · cases h
    · rw [if_neg (by assumption)]; exact ih h

theorem updateAssoc_lookup_self (k : Str) (f : List Value → List Value)
    (ar : List (Str × List Value)) :
    alookup k (updateAssoc k f ar) = some (f ((alookup k ar).getD [])) := by
  induction ar with
  | nil => simp [updateAssoc, alookup]
  | cons p ar ih =>
    rw [updateAssoc]
    by_cases hp : p.1 = k
    · rw [if_pos hp]
      rw [alookup, if_pos hp, alookup, if_pos hp]
      simp
    · rw [if_neg hp]
      rw [alookup, if_neg hp, alookup, if_neg hp]
      exact ih

theorem updateAssoc_lookup_other (k k' : Str) (f : List Value → List Value)
    (ar : List (Str × List Value)) (h : k' ≠ k) :
    alookup k' (updateAssoc k f ar) = alookup k' ar := by
  induction ar with
  | nil =>
    rw [updateAssoc, alookup, alookup, if_neg (fun hk : k = k' => h hk.symm)]
    rw [alookup]
  | cons p ar ih =>
    obtain ⟨pk, pv⟩ := p
    rw [updateAssoc]
    by_cases hp : pk = k
    · rw [if_pos hp, alookup, alookup]
      have hp' : ¬ pk = k' := fun hh => h (hh.symm.trans hp)
      rw [if_neg hp', if_neg hp']
    · rw [if_neg hp, alookup, alookup]
      by_cases hq : pk = k'
      · rw [if_pos hq, if_pos hq]
      · rw [if_neg hq, if_neg hq]
        exact ih

theorem set_append_length (l : List Value) (z v : Value) :
    (l ++ [z]).set l.length v = l ++ [v] := by
  induction l with
  | nil => rfl
  | cons a t ih =>
    show a :: (t ++ [z]).set t.length v = a :: (t ++ [v])
    exact congrArg _ ih

/-- Assigning one past the end of a dynamic list appends. -/
theorem dynSet_length (l : List Value) (v : Value) :
    dynSet l l.length v = l ++ [v] := by
  rw [dynSet, dynExpand, if_pos (by omega)]
  have h1 : l.length + 1 - l.length = 1 := by omega
  rw [h1]
  show (l ++ [Value.int 0]).set l.length v = l ++ [v]
  exact set_append_length l _ v

theorem alookup_map_list (v : Str) (ar : List (Str × List Value)) :
    alookup v (ar.map (fun p => (p.1, Value.list p.2))) =
      (alookup v ar).map Value.list := by
  induction ar with
  | nil => rfl
  | cons p ar ih =>
    obtain ⟨pk, pv⟩ := p
    rw [List.map_cons, alookup, alookup]
    by_cases hp : pk = v
    · rw [if_pos hp, if_pos hp]; rfl
    · rw [if_neg hp, if_neg hp]; exact ih

theorem flattenItem_cons (p : Str × Value) (fs : Record) :
    flattenItem (p :: fs) =
      (match p.2 with
        | .list xs => (pyEnumFrom 0 xs).map (fun q => (dimKey p.1 q.1, q.2))
        | _ => [p]) ++ flattenItem fs := by
  rw [flattenItem, flattenItem, List.flatMap_cons]

/-- Folding the `_dim_` pairs of one list field accumulates, element by
element and in order, onto the dynamic list registered for the base name,
and touches nothing else. -/
theorem dimchain {k : Str} (hk : ¬ '_' ∈ k) :
    ∀ (xs : List Value) (m : Nat) (acc : List Value) (ni : Record)
      (ar : List (Str × List Value)),
      alookup k ar = some acc → acc.length = m →
      ∃ ar', List.foldl unflattenStep (ni, ar)
          ((pyEnumFrom m xs).map (fun p => (dimKey k p.1, p.2))) = (ni, ar') ∧
        alookup k ar' = some (acc ++ xs) ∧
        ∀ k', k' ≠ k → alookup k' ar' = alookup k' ar := by
  intro xs
  induction xs with
  | nil =>
    intro m acc ni ar hacc _hlen
    exact ⟨ar, rfl, by simpa using hacc, fun _ _ => rfl⟩
  | cons x xs ih =>
    intro m acc ni ar hacc hlen
    subst hlen
    rw [pyEnumFrom, List.map_cons, List.foldl_cons]
    have hstep : unflattenStep (ni, ar) (dimKey k acc.length, x) =
        (ni, updateAssoc k (fun arr => dynSet arr acc.length x) ar) := by
      simp [unflattenStep, containsSub_dimKey, splitCh_dimKey acc.length hk, parse_pad4]
    rw [hstep]
    have hacc1 : alookup k (updateAssoc k (fun arr => dynSet arr acc.length x) ar) =
        some (acc ++ [x]) := by
      rw [updateAssoc_lookup_self, hacc]
      show some (dynSet acc acc.length x) = some (acc ++ [x])
      exact congrArg some (dynSet_length acc x)
    obtain ⟨ar', heq, hlook, hother⟩ :=
      ih (acc.length + 1) (acc ++ [x]) ni
        (updateAssoc k (fun arr => dynSet arr acc.length x) ar) hacc1 (by simp)
    refine ⟨ar', heq, ?_, ?_⟩
    · rw [hlook]
      simp
    · intro k' hk'
      rw [hother k' hk', updateAssoc_lookup_other k k' _ ar hk']

/-- Folding the `_dim_` pairs of one list field never touches the plain
fields nor the dynamic list of any other base name. -/
theorem dimfold_other {k : Str} (hk : ¬ '_' ∈ k) :
    ∀ (xs : List Value) (m : Nat) (ni : Record) (ar : List (Str × List Value)),
      ∃ ar', List.foldl unflattenStep (ni, ar)
          ((pyEnumFrom m xs).map (fun p => (dimKey k p.1, p.2))) = (ni, ar') ∧
        ∀ k', k' ≠ k → alookup k' ar' = alookup k' ar := by
  intro xs
  induction xs with
  | nil => intro m ni ar; exact ⟨ar, rfl, fun _ _ => rfl⟩
  | cons x xs ih =>
    intro m ni ar
    rw [pyEnumFrom, List.map_cons, List.foldl_cons]
    have hstep : unflattenStep (ni, ar) (dimKey k m, x) =
        (ni, updateAssoc k (fun arr => dynSet arr m x) ar) := by
      simp [unflattenStep, containsSub_dimKey, splitCh_dimKey m hk, parse_pad4]
    rw [hstep]
    obtain ⟨ar', heq, hother⟩ :=
      ih (m + 1) ni (updateAssoc k (fun arr => dynSet arr m x) ar)
    refine ⟨ar', heq, fun k' hk' => ?_⟩
    rw [hother k' hk', updateAssoc_lookup_other k k' _ ar hk']

/-- Python `isinstance(value, list)`. -/
def isListV : Value → Bool
  | .list _ => true
  | _ => false

theorem flattenItem_cons_list (k : Str) (xs : List Value) (fs : Record) :
    flattenItem ((k, Value.list xs) :: fs) =
      (pyEnumFrom 0 xs).map (fun q => (dimKey k q.1, q.2)) ++ flattenItem fs := by
  rw [flattenItem_cons]

theorem flattenItem_cons_plain {p : Str × Value} (hp : isListV p.2 = false)
    (fs : Record) : flattenItem (p :: fs) = p :: flattenItem fs := by
  obtain ⟨k, w⟩ := p
  rw [flattenItem_cons]
  cases w <;> simp [isListV] at hp ⊢

theorem unflattenStep_plain {k : Str} (hk : ¬ '_' ∈ k) (ni : Record)
    (ar : List (Str × List Value)) (w : Value) :
    unflattenStep (ni, ar) (k, w) = (ni ++ [(k, w)], ar) := by
  simp [unflattenStep, containsSub_dimTag_false hk]

/-- Folding the flattened fields of a record none of whose field names is
the base name `v` neither creates a `v` group nor a plain `v` field. -/
theorem unflatten_preserve (v : Str) :
    ∀ (fs : Record) (ni : Record) (ar : List (Str × List Value)),
      (∀ p ∈ fs, ¬ '_' ∈ p.1) → (∀ p ∈ fs, p.1 ≠ v) →
      ∃ ni' ar', List.foldl unflattenStep (ni, ar) (flattenItem fs) = (ni', ar') ∧
        alookup v ar' = alookup v ar ∧
        (alookup v ni = none → alookup v ni' = none) := by
  intro fs
  induction fs with
  | nil => intro ni ar _ _; exact ⟨ni, ar, rfl, rfl, fun h => h⟩
  | cons p fs ih =>
    intro ni ar hus hne
    obtain ⟨pk, pv⟩ := p
    have hpk_us : ¬ '_' ∈ pk := hus (pk, pv) (List.mem_cons_self _ _)
    have hpk_ne : pk ≠ v := hne (pk, pv) (List.mem_cons_self _ _)
    have hus' : ∀ q ∈ fs, ¬ '_' ∈ q.1 := fun q hq => hus q (List.mem_cons_of_mem _ hq)
    have hne' : ∀ q ∈ fs, q.1 ≠ v := fun q hq => hne q (List.mem_cons_of_mem _ hq)
    by_cases hlist : isListV pv = true
    · obtain ⟨xs, rfl⟩ : ∃ xs, pv = Value.list xs := by
        cases pv <;> simp [isListV] at hlist ⊢
      rw [flattenItem_cons_list, List.foldl_append]
      obtain ⟨ar1, heq1, hother1⟩ := dimfold_other hpk_us xs 0 ni ar
      rw [heq1]
      obtain ⟨ni', ar', heq, hv, hn⟩ := ih ni ar1 hus' hne'
      refine ⟨ni', ar', heq, ?_, hn⟩
      rw [hv, hother1 v (fun h => hpk_ne h.symm)]
    · rw [Bool.not_eq_true] at hlist
      rw [flattenItem_cons_plain hlist fs, List.foldl_cons, unflattenStep_plain hpk_us]
      obtain ⟨ni', ar', heq, hv, hn⟩ := ih (ni ++ [(pk, pv)]) ar hus' hne'
      refine ⟨ni', ar', heq, hv, fun hnone => hn ?_⟩
      rw [alookup_append_right _ _ _ hnone, alookup, if_neg hpk_ne, alookup]

/-- Core of the array round trip: folding the flattened fields of a record
with distinct, underscore-free field names reconstructs the nonempty list
field `v` exactly. -/
theorem unflatten_main (v : Str) (xs : List Value) :
    ∀ (fs : Record) (ni : Record) (ar : List (Str × List Value)),
      (v, Value.list xs) ∈ fs →
      (∀ p ∈ fs, ¬ '_' ∈ p.1) →
      (fs.map Prod.fst).Nodup →
      xs ≠ [] →
      alookup v ar = none → alookup v ni = none →
      ∃ ni' ar', List.foldl unflattenStep (ni, ar) (flattenItem fs) = (ni', ar') ∧
        alookup v ar' = some xs ∧ alookup v ni' = none := by
  intro fs
  induction fs with
  | nil => intro ni ar h; cases h
  | cons p fs ih =>
    intro ni ar hmem hus hnodup hne harv harn
    obtain ⟨pk, pv⟩ := p
    have hpk_us : ¬ '_' ∈ pk := hus (pk, pv) (List.mem_cons_self _ _)
    have hus' : ∀ q ∈ fs, ¬ '_' ∈ q.1 := fun q hq => hus q (List.mem_cons_of_mem _ hq)
    have hnodup2 : (pk :: fs.map Prod.fst).Nodup := hnodup
    have hnodup' : (fs.map Prod.fst).Nodup := (List.nodup_cons.mp hnodup2).2
    have hpk_notin : ¬ pk ∈ fs.map Prod.fst := (List.nodup_cons.mp hnodup2).1
    rcases List.mem_cons.mp hmem with hhead | htail
    · rw [Prod.mk.injEq] at hhead
      obtain ⟨h1, h2⟩ := hhead
      subst h1
      subst h2
      obtain ⟨x, xs0, rfl⟩ : ∃ x xs0, xs = x :: xs0 := by
        cases xs with
        | nil => exact absurd rfl hne
        | cons a b => exact ⟨a, b, rfl⟩
      rw [flattenItem_cons_list, List.foldl_append, pyEnumFrom, List.map_cons,
        List.foldl_cons]
      have hstep : unflattenStep (ni, ar) (dimKey v 0, x) =
          (ni, updateAssoc v (fun arr => dynSet arr 0 x) ar) := by
        simp [unflattenStep, containsSub_dimKey, splitCh_dimKey 0 hpk_us, parse_pad4]
      rw [hstep]
      have hacc1 : alookup v (updateAssoc v (fun arr => dynSet arr 0 x) ar) =
          some [x] := by
        rw [updateAssoc_lookup_self, harv]
        rfl
      obtain ⟨ar2, heq2, hlook2, hother2⟩ :=
        dimchain hpk_us xs0 1 [x] ni (updateAssoc v (fun arr => dynSet arr 0 x) ar)
          hacc1 rfl
      rw [heq2]
      have hne_fs : ∀ q ∈ fs, q.1 ≠ v := by
        intro q hq hqv
        exact hpk_notin (hqv ▸ List.mem_map_of_mem Prod.fst hq)
      obtain ⟨ni', ar', heq3, hv3, hn3⟩ := unflatten_preserve v fs ni ar2 hus' hne_fs
      refine ⟨ni', ar', heq3, ?_, hn3 harn⟩
      rw [hv3, hlook2]
      rfl
    · have hpk_ne : pk ≠ v := by
        intro h
        subst h
        exact hpk_notin (List.mem_map_of_mem Prod.fst htail)
      by_cases hlist : isListV pv = true
      · obtain ⟨ys, rfl⟩ : ∃ ys, pv = Value.list ys := by
          cases pv <;> simp [isListV] at hlist ⊢
        rw [flattenItem_cons_list, List.foldl_append]
        obtain ⟨ar1, heq1, hother1⟩ := dimfold_other hpk_us ys 0 ni ar
        rw [heq1]
        have harv1 : alookup v ar1 = none := by
          rw [hother1 v (fun h => hpk_ne h.symm), harv]
        exact ih ni ar1 htail hus' hnodup' hne harv1 harn
      · rw [Bool.not_eq_true] at hlist
        rw [flattenItem_cons_plain hlist fs, List.foldl_cons, unflattenStep_plain hpk_us]
        have harn1 : alookup v (ni ++ [(pk, pv)]) = none := by
          rw [alookup_append_right _ _ _ harn, alookup, if_neg hpk_ne, alookup]
        exact ih (ni ++ [(pk, pv)]) ar htail hus' hnodup' hne harv harn1

/-- A pair produced by `enumerate` carries an element of the list. -/
theorem pyEnumFrom_mem_snd {x : Nat × Value} :
    ∀ {xs : List Value} {m : Nat}, x ∈ pyEnumFrom m xs → x.2 ∈ xs := by
  intro xs
  induction xs with
  | nil => intro m h; cases h
  | cons a t ih =>
    intro m h
    rw [pyEnumFrom] at h
    rcases List.mem_cons.mp h with h | h
    · rw [h]
      exact List.mem_cons_self _ _
    · exact List.mem_cons_of_mem _ (ih h)

/-- Every flattened field is either an original plain field or an element
of an original list field. -/
theorem flattenItem_values {fs : Record} {kv : Str × Value}
    (h : kv ∈ flattenItem fs) :
    kv ∈ fs ∨ ∃ k ys, (k, Value.list ys) ∈ fs ∧ kv.2 ∈ ys := by
  rw [flattenItem] at h
  obtain ⟨p, hp, hkv⟩ := List.mem_flatMap.mp h
  obtain ⟨pk, pv⟩ := p
  cases pv with
  | list ys =>
    obtain ⟨q, hq, hkvq⟩ := List.mem_map.mp hkv
    refine Or.inr ⟨pk, ys, hp, ?_⟩
    rw [← hkvq]
    exact pyEnumFrom_mem_snd hq
  | null =>
    refine Or.inl ?_
    rw [List.mem_singleton.mp hkv]
    exact hp
  | str s =>
    refine Or.inl ?_
    rw [List.mem_singleton.mp hkv]
    exact hp
  | int n =>
    refine Or.inl ?_
    rw [List.mem_singleton.mp hkv]
    exact hp
  | real t =>
    refine Or.inl ?_
    rw [List.mem_singleton.mp hkv]
    exact hp
  | dict =>
    refine Or.inl ?_
    rw [List.mem_singleton.mp hkv]
    exact hp

/-- An element of a dynamic-list write is an old element, a zero pad, or
the written value. -/
theorem mem_dynSet {x w : Value} {i : Nat} :
    ∀ {l : List Value}, x ∈ dynSet l i w → x ∈ l ∨ x = Value.int 0 ∨ x = w := by
  intro l h
  rw [dynSet] at h
  rcases List.mem_or_eq_of_mem_set h with h | h
  · rw [dynExpand] at h
    split_ifs at h
    · rcases List.mem_append.mp h with h | h
      · exact Or.inl h
      · exact Or.inr (Or.inl (List.eq_of_mem_replicate h))
    · exact Or.inl h
  · exact Or.inr (Or.inr h)

/-- A predicate stable under the update function and holding on the empty
list and on every stored array keeps holding after `updateAssoc`. -/
theorem updateAssoc_forall (P : List Value → Prop) (k : Str)
    (f : List Value → List Value)
    (hf : ∀ arr, P arr → P (f arr)) (hemp : P []) :
    ∀ (ar : List (Str × List Value)), (∀ q ∈ ar, P q.2) →
      ∀ q ∈ updateAssoc k f ar, P q.2 := by
  intro ar
  induction ar with
  | nil =>
    intro _ q hq
    rw [updateAssoc] at hq
    rw [List.mem_singleton.mp hq]
    exact hf [] hemp
  | cons p rest ih =>
    intro hP q hq
    obtain ⟨pk, pv⟩ := p
    rw [updateAssoc] at hq
    by_cases hk : pk = k
    · rw [if_pos hk] at hq
      rcases List.mem_cons.mp hq with hq | hq
      · rw [hq]
        exact hf pv (hP (pk, pv) (List.mem_cons_self _ _))
      · exact hP q (List.mem_cons_of_mem _ hq)
    · rw [if_neg hk] at hq
      rcases List.mem_cons.mp hq with hq | hq
      · rw [hq]
        exact hP (pk, pv) (List.mem_cons_self _ _)
      · exact ih (fun r hr => hP r (List.mem_cons_of_mem _ hr)) q hq

/-- If no `_dim_` field carries NULL, no reconstructed array holds a NULL
element. -/
theorem fold_guard (kvs : List (Str × Value)) :
    ∀ (ni : Record) (ar : List (Str × List Value)),
      (∀ kv ∈ kvs, containsSub dimTag kv.1 = true → kv.2 ≠ Value.null) →
      (∀ q ∈ ar, ∀ x ∈ q.2, x ≠ Value.null) →
      ∀ q ∈ (List.foldl unflattenStep (ni, ar) kvs).2, ∀ x ∈ q.2, x ≠ Value.null := by
  induction kvs with
  | nil => intro ni ar _ har; exact har
  | cons kv rest ih =>
    intro ni ar hkvs har
    rw [List.foldl_cons]
    by_cases hc : containsSub dimTag kv.1 = true
    · have hstep : unflattenStep (ni, ar) kv =
          (ni, updateAssoc ((splitCh kv.1).headD [])
            (fun arr => dynSet arr (parseNat ((splitCh kv.1).getD 2 [])) kv.2) ar) := by
        rw [unflattenStep, if_pos hc]
      rw [hstep]
      refine ih ni _ (fun q hq hcq => hkvs q (List.mem_cons_of_mem _ hq) hcq) ?_
      refine updateAssoc_forall (fun arr => ∀ x ∈ arr, x ≠ Value.null) _ _ ?_ ?_ ar har
      · intro arr harr x hx
        rcases mem_dynSet hx with h | h | h
        · exact harr x h
        · rw [h]
          exact fun hh => Value.noConfusion hh
        · rw [h]
          exact hkvs kv (List.mem_cons_self _ _) hc
      · intro x hx
        cases hx
    · have hstep : unflattenStep (ni, ar) kv = (ni ++ [kv], ar) := by
        rw [unflattenStep, if_neg hc]
      rw [hstep]
      exact ih _ ar (fun q hq hcq => hkvs q (List.mem_cons_of_mem _ hq) hcq) har

/-- A successful association lookup exhibits a member. -/
theorem alookup_mem {β : Type} {k : Str} {v : β} :
    ∀ {l : List (Str × β)}, alookup k l = some v → (k, v) ∈ l := by
  intro l
  induction l with
  | nil => intro h; cases h
  | cons p rest ih =>
    intro h
    obtain ⟨pk, pv⟩ := p
    rw [alookup] at h
    by_cases hk : pk = k
    · rw [if_pos hk] at h
      subst hk
      have hv : pv = v := Option.some.inj h
      subst hv
      exact List.mem_cons_self _ _
    · rw [if_neg hk] at h
      exact List.mem_cons_of_mem _ (ih h)

/-- A key–value pair of a record with distinct keys is found by lookup. -/
theorem alookup_of_mem_nodup {k : Str} {v : Value} :
    ∀ {item : Record}, (k, v) ∈ item → (item.map Prod.fst).Nodup →
      alookup k item = some v := by
  intro item
  induction item with
  | nil => intro h _; cases h
  | cons p rest ih =>
    intro hmem hnodup
    obtain ⟨pk, pv⟩ := p
    have hnodup2 : (pk :: rest.map Prod.fst).Nodup := hnodup
    rcases List.mem_cons.mp hmem with hh | ht
    · rw [Prod.mk.injEq] at hh
      obtain ⟨h1, h2⟩ := hh
      subst h1
      subst h2
      rw [alookup, if_pos rfl]
    · rw [alookup]
      have hpk : ¬ pk = k := by
        intro he
        subst he
        exact (List.nodup_cons.mp hnodup2).1 (List.mem_map_of_mem Prod.fst ht)
      rw [if_neg hpk]
      exact ih ht (List.nodup_cons.mp hnodup2).2

/-- In a record with distinct, underscore-free field names whose list
fields are NULL-free (`v` via the element bound `hxs`, every other field
via `hnull`), every `_dim_` field of the flattening is non-NULL. -/
theorem flattenItem_dim_nonnull {fs : Record} (v : Str) (xs : List Value)
    (hmem : (v, Value.list xs) ∈ fs)
    (hus : ∀ p ∈ fs, ¬ '_' ∈ p.1)
    (hnodup : (fs.map Prod.fst).Nodup)
    (hxs : ∀ x ∈ xs, x ≠ Value.null)
    (hnull : ∀ p ∈ fs, p.1 ≠ v → ∀ ys, p.2 = Value.list ys →
      ∀ x ∈ ys, x ≠ Value.null) :
    ∀ kv ∈ flattenItem fs, containsSub dimTag kv.1 = true → kv.2 ≠ Value.null := by
  intro kv hkv hdim
  rcases flattenItem_values hkv with h | ⟨k, ys, hk, hmem2⟩
  · have hus2 : '_' ∈ kv.1 := containsSub_mem hdim '_' (by decide)
    exact absurd hus2 (hus kv h)
  · by_cases hkeq : k = v
    · subst hkeq
      have h1 := alookup_of_mem_nodup hk hnodup
      have h2 := alookup_of_mem_nodup hmem hnodup
      have hys : ys = xs := Value.list.inj (Option.some.inj (h1.symm.trans h2))
      refine hxs kv.2 ?_
      rw [← hys]
      exact hmem2
    · exact hnull (k, Value.list ys) hk hkeq ys rfl kv.2 hmem2

/-- C5 (amended): array round trip.  For a record with distinct,
underscore-free field names whose list fields hold no NULL element, a
field `v` holding a *nonempty* list of scalars is flattened into
`v_dim_0000 ...` columns (zero-padded to width 4) and reconstructed
densely on read: `unflatten_array_columns` after `flatten_array_columns`
passes the source's no-NULL assertion and returns the identical list under
`v` — same elements, same order, same length.  (For the empty list the
field is dropped, see the counterexample; a NULL element would instead
raise the assertion.) -/
theorem array_roundtrip (r : Record) (v : Str) (xs : List Value)
    (hmem : (v, Value.list xs) ∈ r)
    (hus : ∀ p ∈ r, ¬ '_' ∈ p.1)
    (hnodup : (r.map Prod.fst).Nodup)
    (hne : xs ≠ [])
    (hscal : ∀ x ∈ xs, isListV x = false ∧ x ≠ Value.dict ∧ x ≠ Value.null)
    (hnull : ∀ p ∈ r, p.1 ≠ v → ∀ ys, p.2 = Value.list ys →
      ∀ x ∈ ys, x ≠ Value.null) :
    ∃ rec, unflattenItem (flattenItem r) = .ok rec ∧
      alookup v rec = some (Value.list xs) := by
  obtain ⟨ni', ar', heq, hv, hn⟩ :=
    unflatten_main v xs r [] [] hmem hus hnodup hne rfl rfl
  have hguard := fold_guard (flattenItem r) [] []
    (flattenItem_dim_nonnull v xs hmem hus hnodup (fun x hx => (hscal x hx).2.2) hnull)
    (fun q hq => by cases hq)
  have hanyf : ((List.foldl unflattenStep (([], []) :
        Record × List (Str × List Value)) (flattenItem r)).2.any
      (fun p => p.2.any (fun x => decide (x = Value.null)))) = false := by
    rw [List.any_eq_false]
    intro p hp hcon
    obtain ⟨x, hx, hxnull⟩ := List.any_eq_true.mp hcon
    exact hguard p hp x hx (of_decide_eq_true hxnull)
  refine ⟨ni' ++ ar'.map (fun p => (p.1, Value.list p.2)), ?_, ?_⟩
  · rw [unflattenItem]
    rw [heq] at hanyf
    rw [heq, if_neg (by rw [hanyf]; exact Bool.false_ne_true)]
  · rw [alookup_append_right _ _ _ hn, alookup_map_list, hv]
    rfl

/-- C5 counterexample: a record whose field `v` is the *empty* list does
not round trip — flattening produces no `v_dim_` column at all, so the
read-back record is empty and has no field `v`, contradicting the claim
as stated. -/
theorem array_roundtrip_counterexample :
    unflattenItem (flattenItem [(['v'], Value.list [])]) = .ok [] ∧
    alookup ['v'] ([] : Record) = none := by
  decide

/-- C5 witness: the list `[1, 2, 3]` under field `v` round trips. -/
theorem array_roundtrip_witness :
    ∃ rec, unflattenItem (flattenItem
        [(['v'], Value.list [Value.int 1, Value.int 2, Value.int 3])]) = .ok rec ∧
      alookup ['v'] rec =
        some (Value.list [Value.int 1, Value.int 2, Value.int 3]) :=
  array_roundtrip [(['v'], Value.list [Value.int 1, Value.int 2, Value.int 3])]
    ['v'] [Value.int 1, Value.int 2, Value.int 3]
    (by decide) (by decide) (by decide) (by decide) (by decide)
    (by
      intro p hp hcontra
      rw [List.mem_singleton.mp hp] at hcontra
      exact absurd rfl hcontra)

-- SQL column types produced by `create_column`.
inductive ColType where
  | text
  | real
  | integer
deriving DecidableEq

/-- Type inference of `SQLiteAckQueue.create_column` (`isinstance` chain:
str → TEXT, float → REAL, int → INTEGER, dict → `ValueError`, anything
else → TEXT). -/
def inferType : Value → Except QErr ColType
  | .str _ => .ok .text
  | .real _ => .ok .real
  | .int _ => .ok .integer
  | .dict => .error .nestedDict
  | _ => .ok .text

/-- `SQLiteAckQueue.update_table_schema`: create a column (with its
inferred type) for every field of the given row that is not yet a column;
returns the new column list and the `(name, type)` pairs created. -/
def updateTableSchema (cols : List Str) : Record → Except QErr (List Str × List (Str × ColType))
  | [] => .ok (cols, [])
  | (k, v) :: rest =>
    if k ∈ cols then updateTableSchema cols rest
    else
      match inferType v with
      | .error e => .error e
      | .ok t =>
        match updateTableSchema (cols ++ [k]) rest with
        | .error e => .error e
        | .ok (cols', created) => .ok (cols', (k, t) :: created)

/-- `SQLiteAckQueue.reorder_to_match_table_schema` on one row: read each
table column out of the record (missing fields become NULL) and reject the
row if a field is left that is not a table column (the source's
`assert len(row) == 0`). -/
def reorderVals (cols : List Str) (item : Record) : Except QErr (List Value) :=
  if item.all (fun kv => decide (kv.1 ∈ cols)) then
    .ok (cols.map (fun c => (alookup c item).getD Value.null))
  else .error .extraColumns

/-- `reorder_to_match_table_schema` over the whole batch. -/
def reorderAll (cols : List Str) : List Record → Except QErr (List (List Value))
  | [] => .ok []
  | i :: rest =>
    match reorderVals cols i with
    | .error e => .error e
    | .ok vs =>
      match reorderAll cols rest with
      | .error e => .error e
      | .ok rest' => .ok (vs :: rest')

/-- The value a row stores under column `c` (missing column = NULL). -/
def getStored (r : AQRow) (c : Str) : Value := (alookup c r.fields).getD Value.null

/-- The row built by one `_SQL_INSERT`: fresh key, current time, status
`INITED`, and the reordered values under the current columns. -/
def mkRow (cols : List Str) (now : Int) (k : Nat) (vals : List Value) : AQRow :=
  { key := k, timestamp := now, status := AckStatus.inited, fields := cols.zip vals }

/-- Whether a Python value can be bound as a sqlite3 statement parameter:
binding a list or a dict raises `InterfaceError` at `execute`; scalars and
`None` bind fine. -/
def bindable : Value → Bool
  | .list _ => false
  | .dict => false
  | _ => true

/-- The per-row insert loop of `puts`: `con.execute(insert, item)` first
binds the row's values (a list or dict value raises `InterfaceError`),
then runs `INSERT OR IGNORE ... RETURNING {key_column}` — a row whose
(non-NULL) value under the unique column already occurs is ignored and
yields no key; otherwise the row is appended with the next AUTOINCREMENT
key, which is returned. -/
def insertRows (ucol : Option Str) (cols : List Str) (now : Int) :
    List AQRow → Nat → List (List Value) → Except QErr (List AQRow × Nat × List Nat)
  | rows, nk, [] => .ok (rows, nk, [])
  | rows, nk, vals :: rest =>
    if vals.all bindable = true then
      let dup :=
        match ucol with
        | none => false
        | some uc =>
          match alookup uc (cols.zip vals) with
          | none => false
          | some v =>
            if v = Value.null then false
            else rows.any (fun r => decide (getStored r uc = v))
      if dup then insertRows ucol cols now rows nk rest
      else
        match insertRows ucol cols now (rows ++ [mkRow cols now nk vals]) (nk + 1) rest with
        | .error e => .error e
        | .ok out => .ok (out.1, out.2.1, nk :: out.2.2)
    else .error .unbindableValue

/-- `SQLiteAckQueue.puts`: empty batch short-circuits; empty records are
rejected; records are flattened; the schema is grown from the *first*
flattened record only; every record is reordered against the new column
list (raising on extra fields); with zero user columns the interpolated
`INSERT` statement is malformed (`... (timestamp, status, ) VALUES (?, 0, )`)
and the first execute raises `OperationalError`; otherwise rows are
inserted one by one with "insert or ignore" semantics (binding a list or
dict value raises), returning the keys of the inserted rows. -/
def putsAQ (q : AQ) (now : Int) (items : List Record) : Except QErr (AQ × List Nat) :=
  if items = [] then .ok (q, [])
  else if items.any (fun i => decide (i = [])) then .error .emptyDict
  else
    match updateTableSchema q.columns ((items.map flattenItem).headD []) with
    | .error e => .error e
    | .ok (cols', _created) =>
      match reorderAll cols' (items.map flattenItem) with
      | .error e => .error e
      | .ok valss =>
        if cols' = [] then .error .malformedInsert
        else
          match insertRows q.uniqueColumn cols' now q.rows q.nextKey valss with
          | .error e => .error e
          | .ok out =>
            .ok ({ q with rows := out.1, nextKey := out.2.1, columns := cols' }, out.2.2)

theorem inferType_ok_of_ne_dict {v : Value} (h : v ≠ Value.dict) :
    ∃ t, inferType v = .ok t := by
  cases v with
  | dict => exact absurd rfl h
  | null => exact ⟨.text, rfl⟩
  | str s => exact ⟨.text, rfl⟩
  | int n => exact ⟨.integer, rfl⟩
  | real r => exact ⟨.real, rfl⟩
  | list xs => exact ⟨.text, rfl⟩

/-- `update_table_schema` appends exactly the new fields of the given row,
in order, and only fails on a nested mapping. -/
theorem uts_result (item : Record) : ∀ (cols : List Str),
    ((item.map Prod.fst).Nodup) →
    (∀ kv ∈ item, kv.2 ≠ Value.dict) →
    ∃ created, updateTableSchema cols item =
      .ok (cols ++ (item.map Prod.fst).filter (fun k => decide (¬ k ∈ cols)), created) := by
  induction item with
  | nil => intro cols _ _; exact ⟨[], by simp [updateTableSchema]⟩
  | cons p rest ih =>
    intro cols hnodup hnd
    obtain ⟨k, v⟩ := p
    have hnodup2 : (k :: rest.map Prod.fst).Nodup := hnodup
    have hknotin : ¬ k ∈ rest.map Prod.fst := (List.nodup_cons.mp hnodup2).1
    have hnodup' : (rest.map Prod.fst).Nodup := (List.nodup_cons.mp hnodup2).2
    have hnd' : ∀ kv ∈ rest, kv.2 ≠ Value.dict :=
      fun kv hkv => hnd kv (List.mem_cons_of_mem _ hkv)
    rw [updateTableSchema]
    by_cases hk : k ∈ cols
    · rw [if_pos hk]
      obtain ⟨created, hres⟩ := ih cols hnodup' hnd'
      refine ⟨created, ?_⟩
      rw [hres]
      have : (List.map Prod.fst ((k, v) :: rest)).filter (fun x => decide (¬ x ∈ cols)) =
          (rest.map Prod.fst).filter (fun x => decide (¬ x ∈ cols)) := by
        rw [List.map_cons, List.filter_cons]
        simp [hk]
      rw [this]
    · rw [if_neg hk]
      obtain ⟨t, ht⟩ := inferType_ok_of_ne_dict (hnd (k, v) (List.mem_cons_self _ _))
      rw [ht]
      obtain ⟨created, hres⟩ := ih (cols ++ [k]) hnodup' hnd'
      rw [hres]
      refine ⟨(k, t) :: created, ?_⟩
      have hfilters : (rest.map Prod.fst).filter (fun x => decide (¬ x ∈ cols ++ [k])) =
          (rest.map Prod.fst).filter (fun x => decide (¬ x ∈ cols)) := by
        refine List.filter_congr (fun x hx => ?_)
        have hxk : x ≠ k := fun hxe => hknotin (hxe ▸ hx)
        simp [List.mem_append, hxk]
      have hcols : (cols ++ [k]) ++
          (rest.map Prod.fst).filter (fun x => decide (¬ x ∈ cols ++ [k])) =
          cols ++ (List.map Prod.fst ((k, v) :: rest)).filter
            (fun x => decide (¬ x ∈ cols)) := by
        rw [hfilters, List.map_cons, List.filter_cons, List.append_assoc]
        simp [hk]
      rw [hcols]

theorem reorder_ok (cols : List Str) (item : Record)
    (hsub : ∀ kv ∈ item, kv.1 ∈ cols) :
    reorderVals cols item =
      .ok (cols.map (fun c => (alookup c item).getD Value.null)) := by
  rw [reorderVals, if_pos]
  rw [List.all_eq_true]
  intro kv hkv
  exact decide_eq_true (hsub kv hkv)

theorem reorderAll_ok : ∀ (fitems : List Record) (cols : List Str),
    (∀ i ∈ fitems, ∀ kv ∈ i, kv.1 ∈ cols) →
    reorderAll cols fitems =
      .ok (fitems.map (fun i => cols.map (fun c => (alookup c i).getD Value.null))) := by
  intro fitems
  induction fitems with
  | nil => intro cols _; rfl
  | cons i rest ih =>
    intro cols hsub
    rw [reorderAll, reorder_ok cols i (hsub i (List.mem_cons_self _ _)),
      ih cols (fun j hj => hsub j (List.mem_cons_of_mem _ hj))]
    rfl

/-- The rows appended by a batch insert starting at key `nk`. -/
def mkRowsFrom (cols : List Str) (now : Int) : Nat → List (List Value) → List AQRow
  | _, [] => []
  | nk, vals :: rest => mkRow cols now nk vals :: mkRowsFrom cols now (nk + 1) rest

/-- The keys `nk, nk+1, ...` returned by a batch insert. -/
def keysFrom : Nat → Nat → List Nat
  | _, 0 => []
  | nk, n + 1 => nk :: keysFrom (nk + 1) n

theorem keysFrom_length : ∀ (n nk : Nat), (keysFrom nk n).length = n := by
  intro n
  induction n with
  | zero => intro nk; rfl
  | succ n ih =>
    intro nk
    show (nk :: keysFrom (nk + 1) n).length = n + 1
    rw [List.length_cons, ih]

theorem mkRowsFrom_length (cols : List Str) (now : Int) :
    ∀ (valss : List (List Value)) (nk : Nat),
      (mkRowsFrom cols now nk valss).length = valss.length := by
  intro valss
  induction valss with
  | nil => intro nk; rfl
  | cons v rest ih =>
    intro nk
    show (mkRow cols now nk v :: mkRowsFrom cols now (nk + 1) rest).length = rest.length + 1
    rw [List.length_cons, ih]

/-- A scalar, non-dict value binds as a statement parameter. -/
theorem bindable_of_scalar {v : Value} (h1 : isListV v = false)
    (h2 : v ≠ Value.dict) : bindable v = true := by
  cases v with
  | list xs => exact Bool.noConfusion h1
  | dict => exact absurd rfl h2
  | null => rfl
  | str s => rfl
  | int n => rfl
  | real t => rfl

/-- Without a unique column, the insert loop on bindable rows appends
every row and returns every key. -/
theorem insertRows_none (cols : List Str) (now : Int) :
    ∀ (valss : List (List Value)) (rows : List AQRow) (nk : Nat),
      (∀ vals ∈ valss, vals.all bindable = true) →
      insertRows none cols now rows nk valss =
        .ok (rows ++ mkRowsFrom cols now nk valss, nk + valss.length,
          keysFrom nk valss.length) := by
  intro valss
  induction valss with
  | nil => intro rows nk _; simp [insertRows, mkRowsFrom, keysFrom]
  | cons vals rest ih =>
    intro rows nk hb
    show (if vals.all bindable = true then
        (let dup := false;
        if dup then insertRows none cols now rows nk rest
        else
          match insertRows none cols now (rows ++ [mkRow cols now nk vals])
              (nk + 1) rest with
          | Except.error e => Except.error e
          | Except.ok out => Except.ok (out.1, out.2.1, nk :: out.2.2))
      else Except.error QErr.unbindableValue) =
      Except.ok (rows ++ mkRowsFrom cols now nk (vals :: rest),
        nk + (vals :: rest).length, keysFrom nk (vals :: rest).length)
    rw [if_pos (hb vals (List.mem_cons_self _ _))]
    rw [ih (rows ++ [mkRow cols now nk vals]) (nk + 1)
      (fun w hw => hb w (List.mem_cons_of_mem _ hw))]
    show Except.ok (α := List AQRow × Nat × List Nat) (ε := QErr)
        (rows ++ [mkRow cols now nk vals] ++ mkRowsFrom cols now (nk + 1) rest,
          nk + 1 + rest.length, nk :: keysFrom (nk + 1) rest.length) = _
    rw [List.append_assoc]
    show Except.ok (α := List AQRow × Nat × List Nat) (ε := QErr)
        (rows ++ (mkRow cols now nk vals :: mkRowsFrom cols now (nk + 1) rest),
          nk + 1 + rest.length, nk :: keysFrom (nk + 1) rest.length) =
      Except.ok
        (rows ++ (mkRow cols now nk vals :: mkRowsFrom cols now (nk + 1) rest),
          nk + (rest.length + 1), nk :: keysFrom (nk + 1) rest.length)
    have : nk + 1 + rest.length = nk + (rest.length + 1) := by omega
    rw [this]

theorem alookup_zip_map (g : Str → Value) (c : Str) :
    ∀ (cols : List Str), c ∈ cols →
      alookup c (cols.zip (cols.map g)) = some (g c) := by
  intro cols
  induction cols with
  | nil => intro hc; cases hc
  | cons c0 cols ih =>
    intro hc
    show alookup c ((c0, g c0) :: cols.zip (cols.map g)) = some (g c)
    rw [alookup]
    by_cases h0 : c0 = c
    · rw [if_pos h0, h0]
    · rw [if_neg h0]
      refine ih ?_
      rcases List.mem_cons.mp hc with h | h
      · exact absurd h.symm h0
      · exact h

/-- Each inserted row stores, under every flattened field of its record,
exactly the record's value. -/
theorem puts_rows_spec (cols : List Str) (now : Int) :
    ∀ (fitems : List Record) (nk : Nat),
      (∀ fi ∈ fitems, (fi.map Prod.fst).Nodup) →
      (∀ fi ∈ fitems, ∀ kv ∈ fi, kv.1 ∈ cols) →
      List.Forall₂ (fun fi row => ∀ kv ∈ fi, alookup kv.1 row.fields = some kv.2)
        fitems (mkRowsFrom cols now nk
          (fitems.map (fun i => cols.map (fun c => (alookup c i).getD Value.null)))) := by
  intro fitems
  induction fitems with
  | nil => intro nk _ _; exact List.Forall₂.nil
  | cons fi rest ih =>
    intro nk hnodup hsub
    show List.Forall₂ _ (fi :: rest)
      (mkRow cols now nk (cols.map (fun c => (alookup c fi).getD Value.null)) ::
        mkRowsFrom cols now (nk + 1)
          (rest.map (fun i => cols.map (fun c => (alookup c i).getD Value.null))))
    refine List.Forall₂.cons ?_
      (ih (nk + 1) (fun j hj => hnodup j (List.mem_cons_of_mem _ hj))
        (fun j hj => hsub j (List.mem_cons_of_mem _ hj)))
    intro kv hkv
    show alookup kv.1 (cols.zip (cols.map (fun c => (alookup c fi).getD Value.null))) =
      some kv.2
    rw [alookup_zip_map _ _ cols (hsub fi (List.mem_cons_self _ _) kv hkv)]
    rw [alookup_of_mem_nodup hkv (hnodup fi (List.mem_cons_self _ _))]
    rfl

theorem forall2_map_left {α β γ : Type} (f : α → γ) (P : γ → β → Prop) :
    ∀ {l : List α} {l' : List β}, List.Forall₂ P (l.map f) l' →
      List.Forall₂ (fun a b => P (f a) b) l l' := by
  intro l
  induction l with
  | nil =>
    intro l' h
    cases h
    exact List.Forall₂.nil
  | cons a t ih =>
    intro l' h
    rw [List.map_cons] at h
    cases h with
    | cons hab htail => exact List.Forall₂.cons hab (ih htail)

/-- C6 (amended): schema growth on `puts` is driven by the *first* record
of the batch only.  When every flattened field of every record is either an
existing column or a field of the first record, every flattened value binds
as a sqlite3 parameter (no list or dict cell), and at least one user column
exists (an existing one or a field of the first record — with zero columns
the interpolated `INSERT` is malformed and raises), the batch inserts
successfully: exactly the new fields of the first record become columns (in
order, with `create_column`'s inferred types; a nested mapping value raises),
one row per record is appended, one key per record is returned, and each
appended row stores each record's values under its fields.  (A later record
with a field outside that set raises instead — see the counterexample.) -/
theorem schema_growth_first_record (q : AQ) (now : Int) (items : List Record)
    (hne : items ≠ [])
    (hnonempty : ∀ i ∈ items, i ≠ [])
    (huc : q.uniqueColumn = none)
    (hkeys : ∀ i ∈ items, ((flattenItem i).map Prod.fst).Nodup)
    (hnodict : ∀ kv ∈ flattenItem (items.headD []), kv.2 ≠ Value.dict)
    (hbind : ∀ i ∈ items, ∀ kv ∈ flattenItem i, bindable kv.2 = true)
    (hcols0 : flattenItem (items.headD []) ≠ [] ∨ q.columns ≠ [])
    (hsub : ∀ i ∈ items, ∀ kv ∈ flattenItem i,
        kv.1 ∈ q.columns ∨ kv.1 ∈ (flattenItem (items.headD [])).map Prod.fst) :
    ∃ q' keys,
      putsAQ q now items = .ok (q', keys) ∧
      q'.columns = q.columns ++
        ((flattenItem (items.headD [])).map Prod.fst).filter
          (fun k => decide (¬ k ∈ q.columns)) ∧
      q'.rows.length = q.rows.length + items.length ∧
      keys.length = items.length ∧
      List.Forall₂ (fun i row => ∀ kv ∈ flattenItem i,
        alookup kv.1 row.fields = some kv.2) items (q'.rows.drop q.rows.length) := by
  obtain ⟨i0, rest, rfl⟩ : ∃ i0 rest, items = i0 :: rest := by
    cases items with
    | nil => exact absurd rfl hne
    | cons a b => exact ⟨a, b, rfl⟩
  have hany : ((i0 :: rest).any (fun i => decide (i = []))) = false := by
    rw [List.any_eq_false]
    intro i hi
    simp only [decide_eq_true_eq]
    exact hnonempty i hi
  obtain ⟨created, huts⟩ :=
    uts_result (flattenItem i0) q.columns (hkeys i0 (List.mem_cons_self _ _)) hnodict
  set cols' := q.columns ++ ((flattenItem i0).map Prod.fst).filter
      (fun k => decide (¬ k ∈ q.columns)) with hcols'
  have hmemcols' : ∀ k, (k ∈ q.columns ∨ k ∈ (flattenItem i0).map Prod.fst) →
      k ∈ cols' := by
    intro k hk
    rw [hcols', List.mem_append]
    by_cases hq : k ∈ q.columns
    · exact Or.inl hq
    · rcases hk with hk | hk
      · exact absurd hk hq
      · exact Or.inr (List.mem_filter.mpr ⟨hk, decide_eq_true hq⟩)
  have hsub' : ∀ fi ∈ (i0 :: rest).map flattenItem, ∀ kv ∈ fi, kv.1 ∈ cols' := by
    intro fi hfi kv hkv
    obtain ⟨i, hi, rfl⟩ := List.mem_map.mp hfi
    exact hmemcols' kv.1 (hsub i hi kv hkv)
  have hreo := reorderAll_ok ((i0 :: rest).map flattenItem) cols' hsub'
  set valss := ((i0 :: rest).map flattenItem).map
      (fun i => cols'.map (fun c => (alookup c i).getD Value.null)) with hvalss
  have hball : ∀ vals ∈ valss, vals.all bindable = true := by
    intro vals hvals
    rw [hvalss] at hvals
    obtain ⟨fi, hfi, rfl⟩ := List.mem_map.mp hvals
    rw [List.all_eq_true]
    intro x hx
    obtain ⟨c, hc, rfl⟩ := List.mem_map.mp hx
    cases halo : alookup c fi with
    | none => rfl
    | some w =>
      obtain ⟨i, hi, rfl⟩ := List.mem_map.mp hfi
      exact hbind i hi (c, w) (alookup_mem halo)
  have hcolsne : cols' ≠ [] := by
    rw [hcols']
    intro hc
    obtain ⟨h1, h2⟩ := List.append_eq_nil.mp hc
    rcases hcols0 with h | h
    · obtain ⟨kv, hkv⟩ := List.exists_mem_of_ne_nil _ h
      have hm : kv.1 ∈ (flattenItem i0).map Prod.fst := List.mem_map_of_mem Prod.fst hkv
      have hfil := List.filter_eq_nil.mp h2 kv.1 hm
      rw [h1] at hfil
      simp at hfil
    · exact h h1
  have hins := insertRows_none cols' now valss q.rows q.nextKey hball
  have hputs : putsAQ q now (i0 :: rest) =
      .ok ({ q with
              rows := q.rows ++ mkRowsFrom cols' now q.nextKey valss
              nextKey := q.nextKey + valss.length
              columns := cols' },
           keysFrom q.nextKey valss.length) := by
    rw [putsAQ, if_neg (by simp)]
    rw [if_neg (by rw [hany]; exact Bool.false_ne_true)]
    have hhead : (((i0 :: rest).map flattenItem).headD []) = flattenItem i0 := rfl
    rw [hhead, huts]
    show (match reorderAll cols' ((i0 :: rest).map flattenItem) with
      | Except.error e => Except.error e
      | Except.ok valss =>
        if cols' = [] then Except.error QErr.malformedInsert
        else
          match insertRows q.uniqueColumn cols' now q.rows q.nextKey valss with
          | Except.error e => Except.error e
          | Except.ok out =>
            Except.ok ({ q with rows := out.1, nextKey := out.2.1, columns := cols' },
              out.2.2)) = _
    rw [hreo]
    show (if cols' = [] then Except.error (α := AQ × List Nat) QErr.malformedInsert
      else
        match insertRows q.uniqueColumn cols' now q.rows q.nextKey valss with
        | Except.error e => Except.error e
        | Except.ok out =>
          Except.ok ({ q with rows := out.1, nextKey := out.2.1, columns := cols' },
            out.2.2)) = _
    rw [if_neg hcolsne, huc, hins]
  refine ⟨_, _, hputs, rfl, ?_, ?_, ?_⟩
  · show (q.rows ++ mkRowsFrom cols' now q.nextKey valss).length =
      q.rows.length + (i0 :: rest).length
    rw [List.length_append, mkRowsFrom_length]
    rw [hvalss, List.length_map, List.length_map]
  · show (keysFrom q.nextKey valss.length).length = (i0 :: rest).length
    rw [keysFrom_length, hvalss, List.length_map, List.length_map]
  · show List.Forall₂ _ (i0 :: rest)
      ((q.rows ++ mkRowsFrom cols' now q.nextKey valss).drop q.rows.length)
    rw [List.drop_left]
    have hspec := puts_rows_spec cols' now ((i0 :: rest).map flattenItem) q.nextKey
      (fun fi hfi => by
        obtain ⟨i, hi, rfl⟩ := List.mem_map.mp hfi
        exact hkeys i hi)
      hsub'
    exact forall2_map_left flattenItem _ hspec

/-- A freshly created queue (no unique column). -/
def freshQ : AQ :=
  { rows := [], columns := [], nextKey := 1, uniqueColumn := none,
    timeout := 300, lastTimeout := 0, conOpen := true, deleteOnAck := false }

/-- C6 counterexample: a batch whose *second* record has a field `b` absent
from the first record does not insert — `puts` only grows the schema from
`items[0]`, and `reorder_to_match_table_schema` raises its extra-columns
assertion, so not every field appearing in the batch gets a column. -/
theorem schema_growth_counterexample :
    putsAQ freshQ 0 [[(['a'], Value.int 1)], [(['a'], Value.int 1), (['b'], Value.int 2)]] =
      .error .extraColumns := by
  decide

/-- C6 witness: a two-record batch whose second record only uses fields of
the first inserts fully, creating columns `a` and `b`. -/
theorem schema_growth_first_record_witness :
    ∃ q' keys,
      putsAQ freshQ 0 [[(['a'], Value.int 1), (['b'], Value.str ['x'])],
        [(['a'], Value.int 5)]] = .ok (q', keys) ∧
      q'.columns = freshQ.columns ++
        ((flattenItem ([[(['a'], Value.int 1), (['b'], Value.str ['x'])],
          [(['a'], Value.int 5)]].headD [])).map Prod.fst).filter
          (fun k => decide (¬ k ∈ freshQ.columns)) ∧
      q'.rows.length = freshQ.rows.length + 2 ∧
      keys.length = 2 ∧
      List.Forall₂ (fun i row => ∀ kv ∈ flattenItem i,
          alookup kv.1 row.fields = some kv.2)
        [[(['a'], Value.int 1), (['b'], Value.str ['x'])], [(['a'], Value.int 5)]]
        (q'.rows.drop freshQ.rows.length) :=
  schema_growth_first_record freshQ 0
    [[(['a'], Value.int 1), (['b'], Value.str ['x'])], [(['a'], Value.int 5)]]
    (by decide) (by decide) rfl (by decide) (by decide) (by decide) (by decide)
    (by decide)

/-- Repeated `puts` of the same single record. -/
def iterPuts (r : Record) : Nat → AQ → Int → Except QErr (AQ × List (List Nat))
  | 0, q, _ => .ok (q, [])
  | n + 1, q, now =>
    match putsAQ q now [r] with
    | .error e => .error e
    | .ok (q', ks) =>
      match iterPuts r n q' (now + 1) with
      | .error e => .error e
      | .ok (q'', kss) => .ok (q'', ks :: kss)

/-- First insert of `{c: v}` into a queue with `unique_column = c` and no
row holding `v`: the row is appended and its key returned. -/
theorem putsAQ_unique_first (q : AQ) (c : Str) (v : Value) (now : Int)
    (huc : q.uniqueColumn = some c)
    (hv1 : isListV v = false) (hv2 : v ≠ Value.dict) (hv3 : v ≠ Value.null)
    (hnone : ∀ r ∈ q.rows, getStored r c ≠ v) :
    putsAQ q now [[(c, v)]] =
      .ok ({ q with
              rows := q.rows ++ [mkRow
                (q.columns ++ [c].filter (fun k => decide (¬ k ∈ q.columns))) now
                q.nextKey
                ((q.columns ++ [c].filter (fun k => decide (¬ k ∈ q.columns))).map
                  (fun cc => (alookup cc [(c, v)]).getD Value.null))]
              nextKey := q.nextKey + 1
              columns := q.columns ++ [c].filter (fun k => decide (¬ k ∈ q.columns)) },
        [q.nextKey]) := by
  have hflat : flattenItem [(c, v)] = [(c, v)] := by
    rw [flattenItem_cons_plain hv1]
    rfl
  have hmapf : ([[(c, v)]] : List Record).map flattenItem = [[(c, v)]] := by
    rw [List.map_singleton, hflat]
  have hv2' : ∀ kv ∈ ([(c, v)] : Record), kv.2 ≠ Value.dict := by
    intro kv hkv
    rw [List.mem_singleton.mp hkv]
    exact hv2
  have hnodup1 : (([(c, v)] : Record).map Prod.fst).Nodup := by simp
  obtain ⟨created, huts⟩ := uts_result [(c, v)] q.columns hnodup1 hv2'
  have hmapfst : (([(c, v)] : Record).map Prod.fst) = [c] := rfl
  rw [hmapfst] at huts
  have hcmem : c ∈ q.columns ++ [c].filter (fun k => decide (¬ k ∈ q.columns)) := by
    rw [List.mem_append]
    by_cases hq : c ∈ q.columns
    · exact Or.inl hq
    · exact Or.inr (List.mem_filter.mpr ⟨List.mem_singleton_self c, decide_eq_true hq⟩)
  set cols' := q.columns ++ [c].filter (fun k => decide (¬ k ∈ q.columns)) with hc'
  have hreo := reorderAll_ok [[(c, v)]] cols' (by
    intro i hi kv hkv
    rw [List.mem_singleton.mp hi] at hkv
    rw [List.mem_singleton.mp hkv]
    exact hcmem)
  set vals := cols'.map (fun cc => (alookup cc [(c, v)]).getD Value.null) with hvals
  have hlook : alookup c (cols'.zip vals) = some v := by
    rw [hvals, alookup_zip_map _ _ _ hcmem]
    rw [alookup, if_pos rfl]
    rfl
  have hanyf : (q.rows.any (fun r => decide (getStored r c = v))) = false := by
    rw [List.any_eq_false]
    intro r hr
    simp only [decide_eq_true_eq]
    exact hnone r hr
  have hvbind : (vals.all bindable) = true := by
    rw [hvals, List.all_eq_true]
    intro x hx
    obtain ⟨cc, hcc, rfl⟩ := List.mem_map.mp hx
    cases halo : alookup cc [(c, v)] with
    | none => rfl
    | some w =>
      have hmw := List.mem_singleton.mp (alookup_mem halo)
      have hwv : w = v := congrArg Prod.snd hmw
      rw [hwv]
      exact bindable_of_scalar hv1 hv2
  have hins : insertRows (some c) cols' now q.rows q.nextKey [vals] =
      .ok (q.rows ++ [mkRow cols' now q.nextKey vals], q.nextKey + 1, [q.nextKey]) := by
    show (if vals.all bindable = true then
        (let dup : Bool :=
          match alookup c (cols'.zip vals) with
          | none => false
          | some w =>
            if w = Value.null then false
            else q.rows.any (fun r => decide (getStored r c = w));
        if dup then insertRows (some c) cols' now q.rows q.nextKey []
        else
          match insertRows (some c) cols' now
              (q.rows ++ [mkRow cols' now q.nextKey vals]) (q.nextKey + 1) [] with
          | Except.error e => Except.error e
          | Except.ok out => Except.ok (out.1, out.2.1, q.nextKey :: out.2.2))
      else Except.error QErr.unbindableValue) =
      Except.ok (q.rows ++ [mkRow cols' now q.nextKey vals], q.nextKey + 1, [q.nextKey])
    rw [if_pos hvbind, hlook]
    show (let dup : Bool :=
        if v = Value.null then false
        else q.rows.any (fun r => decide (getStored r c = v));
      if dup then insertRows (some c) cols' now q.rows q.nextKey []
      else
        match insertRows (some c) cols' now
            (q.rows ++ [mkRow cols' now q.nextKey vals]) (q.nextKey + 1) [] with
        | Except.error e => Except.error e
        | Except.ok out => Except.ok (out.1, out.2.1, q.nextKey :: out.2.2)) = _
    rw [if_neg hv3, hanyf]
    rfl
  have hne2 : ¬ (([[(c, v)]] : List Record) = []) := by simp
  have hanyemp : (([[(c, v)]] : List Record).any fun i => decide (i = [])) = false := by
    rw [List.any_eq_false]
    intro i hi
    rw [List.mem_singleton.mp hi]
    simp
  rw [putsAQ, if_neg hne2, if_neg (by rw [hanyemp]; exact Bool.false_ne_true)]
  have hhead : ((([[(c, v)]] : List Record).map flattenItem).headD []) = [(c, v)] := by
    rw [hmapf]
    rfl
  rw [hhead, huts]
  show (match reorderAll cols' (([[(c, v)]] : List Record).map flattenItem) with
    | Except.error e => Except.error e
    | Except.ok valss =>
      if cols' = [] then Except.error QErr.malformedInsert
      else
        match insertRows q.uniqueColumn cols' now q.rows q.nextKey valss with
        | Except.error e => Except.error e
        | Except.ok out =>
          Except.ok ({ q with rows := out.1, nextKey := out.2.1, columns := cols' },
            out.2.2)) = _
  rw [hmapf, hreo]
  show (if cols' = [] then Except.error (α := AQ × List Nat) QErr.malformedInsert
    else
      match insertRows q.uniqueColumn cols' now q.rows q.nextKey [vals] with
      | Except.error e => Except.error e
      | Except.ok out =>
        Except.ok ({ q with rows := out.1, nextKey := out.2.1, columns := cols' },
          out.2.2)) = _
  have hcolsne : cols' ≠ [] := by
    intro hcn
    rw [hcn] at hcmem
    cases hcmem
  rw [if_neg hcolsne, huc, hins]

/-- Inserting `{c: v}` when some row already stores `v` under the unique
column: `INSERT OR IGNORE` inserts nothing, raises nothing, and returns no
key — the queue state is unchanged. -/
theorem putsAQ_unique_dup (q : AQ) (c : Str) (v : Value) (now : Int)
    (huc : q.uniqueColumn = some c)
    (hv1 : isListV v = false) (hv2 : v ≠ Value.dict) (hv3 : v ≠ Value.null)
    (hcmem : c ∈ q.columns)
    (hdup : ∃ r ∈ q.rows, getStored r c = v) :
    putsAQ q now [[(c, v)]] = .ok (q, []) := by
  have hflat : flattenItem [(c, v)] = [(c, v)] := by
    rw [flattenItem_cons_plain hv1]
    rfl
  have hmapf : ([[(c, v)]] : List Record).map flattenItem = [[(c, v)]] := by
    rw [List.map_singleton, hflat]
  have hv2' : ∀ kv ∈ ([(c, v)] : Record), kv.2 ≠ Value.dict := by
    intro kv hkv
    rw [List.mem_singleton.mp hkv]
    exact hv2
  have hnodup1 : (([(c, v)] : Record).map Prod.fst).Nodup := by simp
  obtain ⟨created, huts⟩ := uts_result [(c, v)] q.columns hnodup1 hv2'
  have hmapfst : (([(c, v)] : Record).map Prod.fst) = [c] := rfl
  rw [hmapfst] at huts
  have hfe : ([c].filter (fun k => decide (¬ k ∈ q.columns))) = [] := by
    simp [hcmem]
  rw [hfe, List.append_nil] at huts
  have hreo := reorderAll_ok [[(c, v)]] q.columns (by
    intro i hi kv hkv
    rw [List.mem_singleton.mp hi] at hkv
    rw [List.mem_singleton.mp hkv]
    exact hcmem)
  set vals := q.columns.map (fun cc => (alookup cc [(c, v)]).getD Value.null) with hvals
  have hlook : alookup c (q.columns.zip vals) = some v := by
    rw [hvals, alookup_zip_map _ _ _ hcmem]
    rw [alookup, if_pos rfl]
    rfl
  have hany : (q.rows.any (fun r => decide (getStored r c = v))) = true := by
    rw [List.any_eq_true]
    obtain ⟨r, hr, hrv⟩ := hdup
    exact ⟨r, hr, decide_eq_true hrv⟩
  have hvbind : (vals.all bindable) = true := by
    rw [hvals, List.all_eq_true]
    intro x hx
    obtain ⟨cc, hcc, rfl⟩ := List.mem_map.mp hx
    cases halo : alookup cc [(c, v)] with
    | none => rfl
    | some w =>
      have hmw := List.mem_singleton.mp (alookup_mem halo)
      have hwv : w = v := congrArg Prod.snd hmw
      rw [hwv]
      exact bindable_of_scalar hv1 hv2
  have hins : insertRows (some c) q.columns now q.rows q.nextKey [vals] =
      .ok (q.rows, q.nextKey, []) := by
    show (if vals.all bindable = true then
        (let dup : Bool :=
          match alookup c (q.columns.zip vals) with
          | none => false
          | some w =>
            if w = Value.null then false
            else q.rows.any (fun r => decide (getStored r c = w));
        if dup then insertRows (some c) q.columns now q.rows q.nextKey []
        else
          match insertRows (some c) q.columns now
              (q.rows ++ [mkRow q.columns now q.nextKey vals]) (q.nextKey + 1) [] with
          | Except.error e => Except.error e
          | Except.ok out => Except.ok (out.1, out.2.1, q.nextKey :: out.2.2))
      else Except.error QErr.unbindableValue) =
      Except.ok (q.rows, q.nextKey, [])
    rw [if_pos hvbind, hlook]
    show (let dup : Bool :=
        if v = Value.null then false
        else q.rows.any (fun r => decide (getStored r c = v));
      if dup then insertRows (some c) q.columns now q.rows q.nextKey []
      else
        match insertRows (some c) q.columns now
            (q.rows ++ [mkRow q.columns now q.nextKey vals]) (q.nextKey + 1) [] with
        | Except.error e => Except.error e
        | Except.ok out => Except.ok (out.1, out.2.1, q.nextKey :: out.2.2)) = _
    rw [if_neg hv3, hany]
    rfl
  have hne2 : ¬ (([[(c, v)]] : List Record) = []) := by simp
  have hanyemp : (([[(c, v)]] : List Record).any fun i => decide (i = [])) = false := by
    rw [List.any_eq_false]
    intro i hi
    rw [List.mem_singleton.mp hi]
    simp
  rw [putsAQ, if_neg hne2, if_neg (by rw [hanyemp]; exact Bool.false_ne_true)]
  have hhead : ((([[(c, v)]] : List Record).map flattenItem).headD []) = [(c, v)] := by
    rw [hmapf]
    rfl
  rw [hhead, huts]
  show (match reorderAll q.columns (([[(c, v)]] : List Record).map flattenItem) with
    | Except.error e => Except.error e
    | Except.ok valss =>
      if q.columns = [] then Except.error QErr.malformedInsert
      else
        match insertRows q.uniqueColumn q.columns now q.rows q.nextKey valss with
        | Except.error e => Except.error e
        | Except.ok out =>
          Except.ok ({ q with rows := out.1, nextKey := out.2.1, columns := q.columns },
            out.2.2)) = _
  rw [hmapf, hreo]
  show (if q.columns = [] then Except.error (α := AQ × List Nat) QErr.malformedInsert
    else
      match insertRows q.uniqueColumn q.columns now q.rows q.nextKey [vals] with
      | Except.error e => Except.error e
      | Except.ok out =>
        Except.ok ({ q with rows := out.1, nextKey := out.2.1, columns := q.columns },
          out.2.2)) = _
  have hcolsne : q.columns ≠ [] := by
    intro hcn
    rw [hcn] at hcmem
    cases hcmem
  rw [if_neg hcolsne, huc, hins, ← huc]

/-- Re-inserting a record whose unique value is already present is a
no-op, however many times it is repeated. -/
theorem iterPuts_dup (c : Str) (v : Value)
    (hv1 : isListV v = false) (hv2 : v ≠ Value.dict) (hv3 : v ≠ Value.null) :
    ∀ (n : Nat) (q : AQ) (now : Int),
      q.uniqueColumn = some c → c ∈ q.columns →
      (∃ r ∈ q.rows, getStored r c = v) →
      iterPuts [(c, v)] n q now = .ok (q, List.replicate n []) := by
  intro n
  induction n with
  | zero => intro q now _ _ _; rfl
  | succ n ih =>
    intro q now huc hcm hdup
    show (match putsAQ q now [[(c, v)]] with
      | Except.error e => Except.error e
      | Except.ok (q', ks) =>
        match iterPuts [(c, v)] n q' (now + 1) with
        | Except.error e => Except.error e
        | Except.ok (q'', kss) => Except.ok (q'', ks :: kss)) =
      Except.ok (q, List.replicate (n + 1) [])
    rw [putsAQ_unique_dup q c v now huc hv1 hv2 hv3 hcm hdup]
    show (match iterPuts [(c, v)] n q (now + 1) with
      | Except.error e => Except.error e
      | Except.ok (q'', kss) => Except.ok (q'', ([] : List Nat) :: kss)) = _
    rw [ih q (now + 1) huc hcm hdup]
    rfl

/-- C4: unique-column dedup.  On a queue with `unique_column = c` holding
no row with value `v`, inserting `{c: v}` N ≥ 1 times raises no error,
leaves exactly one row with that value (`count` grows by exactly 1 in
total), returns the new key for the first insert, and returns no key for
each of the N-1 duplicate inserts. -/
theorem unique_column_dedup (q : AQ) (c : Str) (v : Value) (now : Int) (N : Nat)
    (huc : q.uniqueColumn = some c)
    (hv1 : isListV v = false) (hv2 : v ≠ Value.dict) (hv3 : v ≠ Value.null)
    (hnone : ∀ r ∈ q.rows, getStored r c ≠ v)
    (hN : 1 ≤ N) :
    ∃ q', iterPuts [(c, v)] N q now =
        .ok (q', [q.nextKey] :: List.replicate (N - 1) []) ∧
      countAQ q' = countAQ q + 1 ∧
      (q'.rows.filter (fun r => decide (getStored r c = v))).length = 1 := by
  obtain ⟨m, rfl⟩ : ∃ m, N = m + 1 := ⟨N - 1, by omega⟩
  have hfirst := putsAQ_unique_first q c v now huc hv1 hv2 hv3 hnone
  set cols' := q.columns ++ [c].filter (fun k => decide (¬ k ∈ q.columns)) with hc'
  set vals := cols'.map (fun cc => (alookup cc [(c, v)]).getD Value.null) with hv'
  set row1 := mkRow cols' now q.nextKey vals with hr1
  set q1 : AQ := { q with
      rows := q.rows ++ [row1]
      nextKey := q.nextKey + 1
      columns := cols' } with hq1
  have hcmem : c ∈ cols' := by
    rw [hc', List.mem_append]
    by_cases hq : c ∈ q.columns
    · exact Or.inl hq
    · exact Or.inr (List.mem_filter.mpr ⟨List.mem_singleton_self c, decide_eq_true hq⟩)
  have hrowv : getStored row1 c = v := by
    show (alookup c (cols'.zip vals)).getD Value.null = v
    rw [hv', alookup_zip_map _ _ _ hcmem]
    rw [alookup, if_pos rfl]
    rfl
  have huc1 : q1.uniqueColumn = some c := huc
  have hcm1 : c ∈ q1.columns := hcmem
  have hdup1 : ∃ r ∈ q1.rows, getStored r c = v :=
    ⟨row1, List.mem_append_right _ (List.mem_singleton_self _), hrowv⟩
  have htail := iterPuts_dup c v hv1 hv2 hv3 m q1 (now + 1) huc1 hcm1 hdup1
  refine ⟨q1, ?_, ?_, ?_⟩
  · show (match putsAQ q now [[(c, v)]] with
      | Except.error e => Except.error e
      | Except.ok (q', ks) =>
        match iterPuts [(c, v)] m q' (now + 1) with
        | Except.error e => Except.error e
        | Except.ok (q'', kss) => Except.ok (q'', ks :: kss)) =
      Except.ok (q1, [q.nextKey] :: List.replicate (m + 1 - 1) [])
    rw [hfirst]
    show (match iterPuts [(c, v)] m q1 (now + 1) with
      | Except.error e => Except.error e
      | Except.ok (q'', kss) => Except.ok (q'', [q.nextKey] :: kss)) = _
    rw [htail]
    have hm : m + 1 - 1 = m := by omega
    rw [hm]
  · show (q.rows ++ [row1]).length = q.rows.length + 1
    rw [List.length_append]
    rfl
  · show ((q.rows ++ [row1]).filter (fun r => decide (getStored r c = v))).length = 1
    rw [List.filter_append]
    have h1 : q.rows.filter (fun r => decide (getStored r c = v)) = [] := by
      rw [List.filter_eq_nil]
      intro r hr
      simp only [decide_eq_true_eq]
      exact hnone r hr
    have h2 : ([row1].filter (fun r => decide (getStored r c = v))) = [row1] := by
      simp [hrowv]
    rw [h1, h2]
    rfl

/-- A fresh queue with `unique_column = "id"`. -/
def uniqQ : AQ := { freshQ with uniqueColumn := some ['i', 'd'] }

/-- C4 witness: inserting `{id: 7}` three times into a fresh unique queue
returns the key once, then no keys, leaving a single matching row. -/
theorem unique_column_dedup_witness :
    ∃ q', iterPuts [(['i', 'd'], Value.int 7)] 3 uniqQ 0 =
        .ok (q', [uniqQ.nextKey] :: List.replicate (3 - 1) []) ∧
      countAQ q' = countAQ uniqQ + 1 ∧
      (q'.rows.filter (fun r => decide (getStored r ['i', 'd'] = Value.int 7))).length = 1 :=
  unique_column_dedup uniqQ ['i', 'd'] (Value.int 7) 0 3 rfl (by decide) (by decide)
    (by decide) (by decide) (by decide)

/-- The reserved primary-key column `_id`, the default join column of
`IOQueues`. -/
def idCol : Str := ['_', 'i', 'd']

/-- The value a row exposes under a join column: `_id` is the row key;
any other column reads from the stored fields (NULL when absent). -/
def joinVal (r : AQRow) (c : Str) : Value :=
  if c = idCol then Value.int (Int.ofNat r.key) else getStored r c

/-- The `ON {input}.{inCol} = {output}.{outCol}` join condition of
`IOQueues._SQL_SIZE_DELTA` / `_SQL_GETS`: SQL equality, which a NULL on
either side never satisfies. -/
def joinMatchB (r : AQRow) (inCol : Str) (o : AQRow) (outCol : Str) : Bool :=
  decide (joinVal r inCol ≠ Value.null ∧ joinVal o outCol ≠ Value.null ∧
    joinVal r inCol = joinVal o outCol)

/-- The row filter of both IOQueues queries: `{output}.{outCol} IS NULL`
after the left join (no matching output row) and `{input}.status < UNACK`. -/
def readyUnjoinedB (outq : AQ) (inCol outCol : Str) (r : AQRow) : Bool :=
  decide (r.status < AckStatus.unack) &&
    ! (outq.rows.any (fun o => joinMatchB r inCol o outCol))

/-- `IOQueues.size_ready`: count of input rows not joined to any output
row and with `status < UNACK`. -/
def sizeReadyAQ (inq outq : AQ) (inCol outCol : Str) : Nat :=
  (inq.rows.filter (readyUnjoinedB outq inCol outCol)).length

/-- The rows selected by `IOQueues.gets` (`_SQL_GETS` with LIMIT n). -/
def ioqSelectRows (inq outq : AQ) (inCol outCol : Str) (n : Nat) : List AQRow :=
  (inq.rows.filter (readyUnjoinedB outq inCol outCol)).take n

/-- C1: IOQ join idempotence.  An input row with a matching output row
(under the configured join columns) is never counted by `size_ready` and
never selected by `gets`, whatever its status (`INITED`, `READY` or
`UNACK`); consequently, whenever every still-available input row is joined
to an output row — in particular after every record of a consumed batch has
been written to the output queue — `size_ready() = 0`. -/
theorem ioq_join_idempotence (inq outq : AQ) (inCol outCol : Str) :
    (∀ r ∈ inq.rows, (∃ o ∈ outq.rows, joinMatchB r inCol o outCol = true) →
      readyUnjoinedB outq inCol outCol r = false ∧
      ∀ n, ¬ r ∈ ioqSelectRows inq outq inCol outCol n) ∧
    ((∀ r ∈ inq.rows, r.status < AckStatus.unack →
        ∃ o ∈ outq.rows, joinMatchB r inCol o outCol = true) →
      sizeReadyAQ inq outq inCol outCol = 0) := by
  constructor
  · rintro r hr ⟨o, ho, hmatch⟩
    have hany : (outq.rows.any (fun o => joinMatchB r inCol o outCol)) = true :=
      List.any_eq_true.mpr ⟨o, ho, hmatch⟩
    have hpred : readyUnjoinedB outq inCol outCol r = false := by
      rw [readyUnjoinedB, hany]
      simp
    refine ⟨hpred, fun n hmem => ?_⟩
    have hmem2 := List.mem_filter.mp (List.mem_of_mem_take hmem)
    rw [hpred] at hmem2
    exact Bool.false_ne_true hmem2.2
  · intro hall
    rw [sizeReadyAQ, List.length_eq_zero, List.filter_eq_nil_iff]
    intro r hr
    rw [readyUnjoinedB]
    by_cases hst : r.status < AckStatus.unack
    · obtain ⟨o, ho, hm⟩ := hall r hr hst
      have hany : (outq.rows.any (fun o => joinMatchB r inCol o outCol)) = true :=
        List.any_eq_true.mpr ⟨o, ho, hm⟩
      simp [hany]
    · simp [hst]

/-- An input table whose two rows (one held `UNACK`, one `READY`) are both
joined to the output table on the default `_id` columns. -/
def joinedInq : AQ :=
  { rows := [{ key := 1, timestamp := 0, status := AckStatus.ready, fields := [] },
             { key := 2, timestamp := 0, status := AckStatus.unack, fields := [] }]
    columns := []
    nextKey := 3
    uniqueColumn := none
    timeout := 300
    lastTimeout := 0
    conOpen := true
    deleteOnAck := false }

/-- The matching output table for `joinedInq` (keys 1 and 2 present). -/
def joinedOutq : AQ :=
  { rows := [{ key := 1, timestamp := 0, status := AckStatus.inited, fields := [] },
             { key := 2, timestamp := 0, status := AckStatus.inited, fields := [] }]
    columns := []
    nextKey := 3
    uniqueColumn := none
    timeout := 300
    lastTimeout := 0
    conOpen := true
    deleteOnAck := false }

/-- C1 witness: with both input rows joined to the output table,
`size_ready` is 0 although one row is still `READY` and one `UNACK`. -/
theorem ioq_join_idempotence_witness :
    sizeReadyAQ joinedInq joinedOutq idCol idCol = 0 :=
  (ioq_join_idempotence joinedInq joinedOutq idCol idCol).2 (by decide)

/-- One registered stage of the `JobQueue` driver (a `Link`): the IOQueues
pair with its join columns and batch size, the per-stage tasks queue
`tasks_<name>`, the user function, and the per-stage task counter
`_task_count[name]`.  The user function may raise (`Except.error`). -/
structure StageState where
  inq : AQ
  outq : AQ
  tasks : AQ
  batchSize : Nat
  inCol : Str
  outCol : Str
  userFn : List Record → Except Unit (List Record)
  taskCount : Nat

/-- `unflatten_array_columns` over a batch of items: the first failing
no-NULL assertion propagates. -/
def unflattenAll : List Record → Except QErr (List Record)
  | [] => .ok []
  | i :: rest =>
    match unflattenItem i with
    | .error e => .error e
    | .ok i2 =>
      match unflattenAll rest with
      | .error e => .error e
      | .ok rest2 => .ok (i2 :: rest2)

/-- `IOQueues.gets`: one connection access (sweeping the input table),
the limited left-join select, item reconstruction (all input columns minus
the reserved triple, then `unflatten_array_columns`, whose no-NULL
assertion may raise — in which case `updates` never runs), then
`updates(keys, UNACK)` on the input queue (which accesses the connection
again, sweeping once more).  Wall-clock time is the integer tick advanced
at each connection access. -/
def ioqGets (st : StageState) (now : Int) :
    Except Unit (List Record × StageState × Int) :=
  match unflattenAll ((ioqSelectRows (applyTimeout st.inq (now + 1)) st.outq st.inCol
      st.outCol st.batchSize).map (fun r =>
        (applyTimeout st.inq (now + 1)).columns.map (fun c => (c, getStored r c)))) with
  | .error _ => .error ()
  | .ok items =>
    match updatesAQ (applyTimeout (applyTimeout st.inq (now + 1)) (now + 2))
        ((ioqSelectRows (applyTimeout st.inq (now + 1)) st.outq st.inCol st.outCol
          st.batchSize).map AQRow.key) AckStatus.unack with
    | .error _ => .error ()
    | .ok inq3 => .ok (items, { st with inq := inq3 }, now + 2)

/-- The possible outcomes of one wrapped task invocation: normal return,
an exception from the user function (carrying the state at the raise,
since all queue writes so far were committed), or a queue-level error. -/
inductive TaskOutcome where
  | ok (st : StageState) (now : Int)
  | userError (st : StageState) (now : Int)
  | queueError

/-- The wrapped function built by `JobQueue.link` around a user function:
`tasks.acks([task_id])` (default status `ACKED`), one `IOQ.gets()` batch,
the user function, `IOQ.puts` of its output (skipped entirely for an empty
output, as `puts` returns before touching the store), and finally
`tasks.acks([task_id], status=ACK_DONE)`.  If the user function raises,
nothing after it runs. -/
def wrappedFunc (st : StageState) (taskId : Nat) (now : Int) : TaskOutcome :=
  match updatesAQ (applyTimeout st.tasks (now + 1)) [taskId] AckStatus.acked with
  | .error _ => .queueError
  | .ok t2 =>
    match ioqGets { st with tasks := t2 } (now + 1) with
    | .error _ => .queueError
    | .ok (items, st2, n2) =>
      match st.userFn items with
      | .error _ => .userError st2 n2
      | .ok outRows =>
        if outRows = [] then
          match updatesAQ (applyTimeout st2.tasks (n2 + 1)) [taskId]
              AckStatus.ackDone with
          | .error _ => .queueError
          | .ok t4 => .ok { st2 with tasks := t4 } (n2 + 1)
        else
          match putsAQ (applyTimeout st2.outq (n2 + 1)) (n2 + 1) outRows with
          | .error _ => .queueError
          | .ok (outq2, _ks) =>
            match updatesAQ (applyTimeout st2.tasks (n2 + 2)) [taskId]
                AckStatus.ackDone with
            | .error _ => .queueError
            | .ok t4 => .ok { st2 with outq := outq2, tasks := t4 } (n2 + 2)

/-- The status of the row with the given key (first match). -/
def statusOfKey (q : AQ) (k : Nat) : Option Nat :=
  (q.rows.find? (fun r => decide (r.key = k))).map AQRow.status

theorem find?_key_map (f : AQRow → AQRow) (hf : ∀ r, (f r).key = r.key) (k : Nat) :
    ∀ rows : List AQRow,
      (rows.map f).find? (fun r => decide (r.key = k)) =
        (rows.find? (fun r => decide (r.key = k))).map f := by
  intro rows
  induction rows with
  | nil => rfl
  | cons r t ih =>
    rw [List.map_cons, List.find?_cons, List.find?_cons]
    by_cases hk : r.key = k
    · have h1 : decide ((f r).key = k) = true := by rw [hf]; exact decide_eq_true hk
      have h2 : decide (r.key = k) = true := decide_eq_true hk
      rw [h1, h2]
      rfl
    · have h1 : decide ((f r).key = k) = false := by rw [hf]; exact decide_eq_false hk
      have h2 : decide (r.key = k) = false := decide_eq_false hk
      rw [h1, h2]
      exact ih

/-- A successful single-key `updates` leaves the addressed row at exactly
the written status. -/
theorem statusOfKey_updates {q : AQ} {k s : Nat} {q' : AQ}
    (h : updatesAQ q [k] s = .ok q') : statusOfKey q' k = some s := by
  unfold updatesAQ at h
  by_cases hm : matchedCount q [k] ≠ [k].length
  · rw [if_pos hm] at h
    cases h
  · rw [if_neg hm] at h
    have hq' := (Except.ok.inj h).symm
    subst hq'
    push_neg at hm
    have hpos : 0 < q.rows.countP (fun r => decide (r.key ∈ [k])) := by
      have : matchedCount q [k] = 1 := hm
      rw [matchedCount] at this
      omega
    obtain ⟨r0, hr0, hp0⟩ := List.countP_pos.mp hpos
    have hsome : (q.rows.find? (fun r => decide (r.key = k))).isSome := by
      rw [List.find?_isSome]
      refine ⟨r0, hr0, ?_⟩
      rw [decide_eq_true_eq]
      rw [decide_eq_true_eq, List.mem_singleton] at hp0
      exact hp0
    obtain ⟨rf, hrf⟩ := Option.isSome_iff_exists.mp hsome
    have hrfk : rf.key = k := by
      have := List.find?_some hrf
      rwa [decide_eq_true_eq] at this
    rw [statusOfKey]
    rw [find?_key_map _ (fun r => by split <;> rfl) k]
    rw [hrf]
    show some (if rf.key ∈ [k] then { rf with status := s } else rf).status = some s
    rw [if_pos (List.mem_singleton.mpr hrfk)]

/-- The sweep never moves a row that is not `UNACK`; in particular a row
at `ACKED` keeps that status through every sweep. -/
theorem statusOfKey_applyTimeout {q : AQ} {k s : Nat}
    (h : statusOfKey q k = some s) (hs : s ≠ AckStatus.unack) (n : Int) :
    statusOfKey (applyTimeout q n) k = some s := by
  unfold applyTimeout
  split_ifs with h1 h2
  · exact h
  · exact h
  · rw [statusOfKey, find?_key_map _ (fun r => by split <;> rfl) k]
    rw [statusOfKey] at h
    obtain ⟨rf, hrf, hrs⟩ := Option.map_eq_some'.mp h
    rw [hrf]
    show some (if rf.status = AckStatus.unack ∧ rf.timestamp < n - q.timeout
      then { rf with status := AckStatus.ready } else rf).status = some s
    rw [if_neg (fun hc => hs (by rw [← hrs]; exact hc.1))]
    rw [hrs]

/-- `IOQueues.gets` only writes to the input queue: every other component
of the stage is returned unchanged. -/
theorem ioqGets_frame {st : StageState} {now : Int} {items : List Record}
    {st' : StageState} {n' : Int} (h : ioqGets st now = .ok (items, st', n')) :
    st'.tasks = st.tasks ∧ st'.outq = st.outq ∧ st'.userFn = st.userFn ∧
    st'.taskCount = st.taskCount := by
  unfold ioqGets at h
  split at h
  · cases h
  · split at h
    · cases h
    · have hst : st' = { st with inq := _ } :=
        (congrArg (fun p => p.2.1) (Except.ok.inj h)).symm
      rw [hst]
      exact ⟨rfl, rfl, rfl, rfl⟩

/-- The tasks queue at the moment the user function raised, if it did. -/
def errTasks : TaskOutcome → Option AQ
  | .userError st _ => some st.tasks
  | _ => none

/-- The tasks queue after a normal return, if any. -/
def okTasks : TaskOutcome → Option AQ
  | .ok st _ => some st.tasks
  | _ => none

/-- C3 (amended): task-attempt lifecycle.  The wrapped stage function first
moves the task row to `ACKED` (5) — `tasks.acks([task_id])` with its
default status — not to `UNACK` (2); `ACKED` still counts as active
(`UNACK ≤ 5 < ACK_FAILED`).  If the user function raises, the row is left
at `ACKED`, and since the visibility-timeout sweep only rewrites `UNACK`
rows, no later sweep recovers it.  Only on success is it moved to
`ACK_DONE` (17). -/
theorem task_lifecycle (st : StageState) (taskId : Nat) (now : Int) :
    (AckStatus.unack ≤ AckStatus.acked ∧ AckStatus.acked < AckStatus.ackFailed) ∧
    (∀ tq, errTasks (wrappedFunc st taskId now) = some tq →
      statusOfKey tq taskId = some AckStatus.acked ∧
      ∀ n2, statusOfKey (applyTimeout tq n2) taskId = some AckStatus.acked) ∧
    (∀ tq, okTasks (wrappedFunc st taskId now) = some tq →
      statusOfKey tq taskId = some AckStatus.ackDone) := by
  refine ⟨by decide, ?_⟩
  rcases h1 : updatesAQ (applyTimeout st.tasks (now + 1)) [taskId] AckStatus.acked
    with e | t2
  · constructor
    · intro tq htq
      rw [wrappedFunc, h1] at htq
      cases htq
    · intro tq htq
      rw [wrappedFunc, h1] at htq
      cases htq
  · rcases h2 : ioqGets { st with tasks := t2 } (now + 1) with e | out
    · constructor
      · intro tq htq
        rw [wrappedFunc, h1] at htq
        simp only [] at htq
        rw [h2] at htq
        cases htq
      · intro tq htq
        rw [wrappedFunc, h1] at htq
        simp only [] at htq
        rw [h2] at htq
        cases htq
    · obtain ⟨items, st2, n2⟩ := out
      have hframe := ioqGets_frame h2
      have htask2 : st2.tasks = t2 := hframe.1
      have hstat2 : statusOfKey st2.tasks taskId = some AckStatus.acked := by
        rw [htask2]
        exact statusOfKey_updates h1
      rcases h3 : st.userFn items with eu | outRows
      · constructor
        · intro tq htq
          rw [wrappedFunc, h1] at htq
          simp only [] at htq
          rw [h2] at htq
          simp only [] at htq
          rw [h3] at htq
          have htqe : tq = st2.tasks := (Option.some.inj htq).symm
          subst htqe
          refine ⟨hstat2, fun n2' => ?_⟩
          exact statusOfKey_applyTimeout hstat2 (by decide) n2'
        · intro tq htq
          rw [wrappedFunc, h1] at htq
          simp only [] at htq
          rw [h2] at htq
          simp only [] at htq
          rw [h3] at htq
          cases htq
      · by_cases ho : outRows = []
        · rcases h4 : updatesAQ (applyTimeout st2.tasks (n2 + 1)) [taskId]
              AckStatus.ackDone with e4 | t4
          · constructor
            · intro tq htq
              rw [wrappedFunc, h1] at htq
              simp only [] at htq
              rw [h2] at htq
              simp only [] at htq
              rw [h3] at htq
              simp only [] at htq
              rw [if_pos ho, h4] at htq
              cases htq
            · intro tq htq
              rw [wrappedFunc, h1] at htq
              simp only [] at htq
              rw [h2] at htq
              simp only [] at htq
              rw [h3] at htq
              simp only [] at htq
              rw [if_pos ho, h4] at htq
              cases htq
          · constructor
            · intro tq htq
              rw [wrappedFunc, h1] at htq
              simp only [] at htq
              rw [h2] at htq
              simp only [] at htq
              rw [h3] at htq
              simp only [] at htq
              rw [if_pos ho, h4] at htq
              cases htq
            · intro tq htq
              rw [wrappedFunc, h1] at htq
              simp only [] at htq
              rw [h2] at htq
              simp only [] at htq
              rw [h3] at htq
              simp only [] at htq
              rw [if_pos ho, h4] at htq
              have htqe : tq = t4 := (Option.some.inj htq).symm
              subst htqe
              exact statusOfKey_updates h4
        · rcases h5 : putsAQ (applyTimeout st2.outq (n2 + 1)) (n2 + 1) outRows
            with e5 | out5
          · constructor
            · intro tq htq
              rw [wrappedFunc, h1] at htq
              simp only [] at htq
              rw [h2] at htq
              simp only [] at htq
              rw [h3] at htq
              simp only [] at htq
              rw [if_neg ho, h5] at htq
              cases htq
            · intro tq htq
              rw [wrappedFunc, h1] at htq
              simp only [] at htq
              rw [h2] at htq
              simp only [] at htq
              rw [h3] at htq
              simp only [] at htq
              rw [if_neg ho, h5] at htq
              cases htq
          · obtain ⟨outq2, ks⟩ := out5
            rcases h6 : updatesAQ (applyTimeout st2.tasks (n2 + 2)) [taskId]
                AckStatus.ackDone with e6 | t4
            · constructor
              · intro tq htq
                rw [wrappedFunc, h1] at htq
                simp only [] at htq
                rw [h2] at htq
                simp only [] at htq
                rw [h3] at htq
                simp only [] at htq
                rw [if_neg ho, h5] at htq
                simp only [] at htq
                rw [h6] at htq
                cases htq
              · intro tq htq
                rw [wrappedFunc, h1] at htq
                simp only [] at htq
                rw [h2] at htq
                simp only [] at htq
                rw [h3] at htq
                simp only [] at htq
                rw [if_neg ho, h5] at htq
                simp only [] at htq
                rw [h6] at htq
                cases htq
            · constructor
              · intro tq htq
                rw [wrappedFunc, h1] at htq
                simp only [] at htq
                rw [h2] at htq
                simp only [] at htq
                rw [h3] at htq
                simp only [] at htq
                rw [if_neg ho, h5] at htq
                simp only [] at htq
                rw [h6] at htq
                cases htq
              · intro tq htq
                rw [wrappedFunc, h1] at htq
                simp only [] at htq
                rw [h2] at htq
                simp only [] at htq
                rw [h3] at htq
                simp only [] at htq
                rw [if_neg ho, h5] at htq
                simp only [] at htq
                rw [h6] at htq
                have htqe : tq = t4 := (Option.some.inj htq).symm
                subst htqe
                exact statusOfKey_updates h6

/-- A user function that always raises. -/
def failFn : List Record → Except Unit (List Record) := fun _ => .error ()

/-- A concrete one-stage setup: one pending input row, empty output table,
and one freshly created task row (`INITED`), with a raising user function. -/
def cStage : StageState :=
  { inq := { rows := [{ key := 1, timestamp := 0, status := AckStatus.inited, fields := [] }]
             columns := []
             nextKey := 2
             uniqueColumn := none
             timeout := 300
             lastTimeout := 0
             conOpen := true
             deleteOnAck := false }
    outq := { rows := []
              columns := []
              nextKey := 1
              uniqueColumn := none
              timeout := 300
              lastTimeout := 0
              conOpen := true
              deleteOnAck := false }
    tasks := { rows := [{ key := 1, timestamp := 0, status := AckStatus.inited, fields := [] }]
               columns := []
               nextKey := 2
               uniqueColumn := none
               timeout := 300
               lastTimeout := 0
               conOpen := true
               deleteOnAck := false }
    batchSize := 1
    inCol := idCol
    outCol := idCol
    userFn := failFn
    taskCount := 0 }

/-- The tasks table left behind by `wrappedFunc cStage 1 0`. -/
def cStageTasksAfter : AQ :=
  { rows := [{ key := 1, timestamp := 0, status := AckStatus.acked, fields := [] }]
    columns := []
    nextKey := 2
    uniqueColumn := none
    timeout := 300
    lastTimeout := 0
    conOpen := true
    deleteOnAck := false }

/-- C3 counterexample: running the wrapped function with a raising user
function leaves the task row at `ACKED` (5), not `UNACK` (2) — the first
`tasks.acks([task_id])` uses the default `ACKED` status, so the claim that
the row is set to (and, on failure, left in) `UNACK` is false. -/
theorem task_lifecycle_counterexample :
    errTasks (wrappedFunc cStage 1 0) = some cStageTasksAfter ∧
    statusOfKey cStageTasksAfter 1 = some AckStatus.acked ∧
    ¬ statusOfKey cStageTasksAfter 1 = some AckStatus.unack :=
  ⟨rfl, rfl, by decide⟩

/-- C3 witness: on the concrete failing stage, the task row ends at
`ACKED` and stays there through a sweep long past the timeout. -/
theorem task_lifecycle_witness :
    statusOfKey cStageTasksAfter 1 = some AckStatus.acked ∧
    statusOfKey (applyTimeout cStageTasksAfter 1000000) 1 = some AckStatus.acked :=
  ⟨((task_lifecycle cStage 1 0).2.1 cStageTasksAfter rfl).1,
   ((task_lifecycle cStage 1 0).2.1 cStageTasksAfter rfl).2 1000000⟩

/-- The name of the single field of a task row, `task_index`. -/
def tiKey : Str := ['t', 'a', 's', 'k', '_', 'i', 'n', 'd', 'e', 'x']

/-- The number of loop iterations of `run_once` for one stage:
`delta = size_ready()` (sweeping the input table), `need = ceil(delta /
batch_size)`, `active = tasks.active()` (sweeping the tasks table), then
the `while need >= active` loop body runs `need - active + 1` times. -/
def taskIters (st : StageState) (now : Int) : Nat :=
  let delta := sizeReadyAQ (applyTimeout st.inq (now + 1)) st.outq st.inCol st.outCol
  let need := (delta + st.batchSize - 1) / st.batchSize
  let act := activeAQ (applyTimeout st.tasks (now + 2))
  if need ≥ act then need - act + 1 else 0

/-- `JobQueue.create_task`: write a `{task_index}` row into the stage's
tasks table (one connection access), unpack the single returned key, run
the wrapped function inline (the default submit), then bump the per-stage
counter.  An exception anywhere (including inside the user function)
propagates out of the driver. -/
def createTask (st : StageState) (now : Int) : Except Unit (StageState × Int) :=
  match putsAQ (applyTimeout st.tasks (now + 1)) (now + 1)
      [[(tiKey, Value.int (Int.ofNat st.taskCount))]] with
  | .error _ => .error ()
  | .ok (tq', ks) =>
    match ks with
    | [k] =>
      match wrappedFunc { st with tasks := tq' } k (now + 1) with
      | .ok st2 n2 => .ok ({ st2 with taskCount := st.taskCount + 1 }, n2)
      | _ => .error ()
    | _ => .error ()

/-- The `while need >= active` loop of `run_once`, running `n` task
creations in sequence. -/
def runTasks : Nat → StageState → Int → Except Unit (StageState × Int)
  | 0, st, now => .ok (st, now)
  | n + 1, st, now =>
    match createTask st now with
    | .error e => .error e
    | .ok (st', n') => runTasks n st' n'

/-- One stage's share of `run_once`: compute the iteration count from the
swept queues, then run that many task creations starting from the swept
state. -/
def runStage (st : StageState) (now : Int) : Except Unit (StageState × Int) :=
  runTasks (taskIters st now)
    { st with
      inq := applyTimeout st.inq (now + 1)
      tasks := applyTimeout st.tasks (now + 2) }
    (now + 2)

/-- `run_once` over the registered stages, in registration order. -/
def runStages : List StageState → Int → Except Unit (List StageState × Int)
  | [], now => .ok ([], now)
  | st :: rest, now =>
    match runStage st now with
    | .error e => .error e
    | .ok (st', n') =>
      match runStages rest n' with
      | .error e => .error e
      | .ok (rest', n'') => .ok (st' :: rest', n'')

/-- The whole driver state: the registered stages and the clock tick. -/
structure JQSys where
  stages : List StageState
  now : Int

def runOnceSys (sys : JQSys) : Except Unit JQSys :=
  match runStages sys.stages sys.now with
  | .error e => .error e
  | .ok (stages', n') => .ok { stages := stages', now := n' }

/-- `size_ready` of one stage (pure read). -/
def sizeReadySt (st : StageState) : Nat :=
  sizeReadyAQ st.inq st.outq st.inCol st.outCol

/-- `JobQueue._check_complete`: for each stage, sweep its input table and
test `size_ready() == 0`; the driver is complete when all stages are. -/
def checkStages : List StageState → Int → Bool × List StageState × Int
  | [], now => (true, [], now)
  | st :: rest, now =>
    let st' := { st with inq := applyTimeout st.inq (now + 1) }
    let out := checkStages rest (now + 1)
    (decide (sizeReadySt st' = 0) && out.1, st' :: out.2.1, out.2.2)

def checkCompleteTimed (sys : JQSys) : Bool × JQSys :=
  ((checkStages sys.stages sys.now).1,
   { stages := (checkStages sys.stages sys.now).2.1,
     now := (checkStages sys.stages sys.now).2.2 })

/-- `JobQueue.run_until_complete`, with explicit fuel: `none` means the
loop was still running after `fuel` iterations; `some` is a genuine return
(normal or by a propagated exception). -/
def runUntilComplete : Nat → JQSys → Option (Except Unit JQSys)
  | 0, _ => none
  | fuel + 1, sys =>
    if (checkCompleteTimed sys).1 then some (.ok (checkCompleteTimed sys).2)
    else
      match runOnceSys (checkCompleteTimed sys).2 with
      | .error e => some (.error e)
      | .ok sys' => runUntilComplete fuel sys'

theorem checkStages_all_zero : ∀ (stages : List StageState) (now : Int),
    (checkStages stages now).1 = true →
    ∀ st ∈ (checkStages stages now).2.1, sizeReadySt st = 0 := by
  intro stages
  induction stages with
  | nil => intro now _ st hst; cases hst
  | cons s rest ih =>
    intro now hall st hst
    simp only [checkStages] at hall hst
    rw [Bool.and_eq_true] at hall
    obtain ⟨hz, hrest⟩ := hall
    rcases List.mem_cons.mp hst with hh | ht
    · rw [hh]
      exact of_decide_eq_true hz
    · exact ih (now + 1) hrest st ht

/-- C9 (amended): whenever `run_until_complete` returns normally, the
completion check has just passed, so every registered stage's
`size_ready()` is 0 — no input row remains unjoined to an output and
unheld; the check never looks at the tasks queues.  (Termination itself is
*not* guaranteed for every terminating, empty-batch-tolerant user
function: see the non-termination counterexample.) -/
theorem driver_quiescence : ∀ (fuel : Nat) (sys sys' : JQSys),
    runUntilComplete fuel sys = some (.ok sys') →
    ∀ st ∈ sys'.stages, sizeReadySt st = 0 := by
  intro fuel
  induction fuel with
  | zero => intro sys sys' h; cases h
  | succ fuel ih =>
    intro sys sys' h
    rw [runUntilComplete] at h
    by_cases hc : (checkCompleteTimed sys).1 = true
    · rw [if_pos hc] at h
      have hsys' : (checkCompleteTimed sys).2 = sys' := Except.ok.inj (Option.some.inj h)
      intro st hst
      rw [← hsys'] at hst
      exact checkStages_all_zero sys.stages sys.now hc st hst
    · rw [if_neg hc] at h
      rcases hrun : runOnceSys (checkCompleteTimed sys).2 with e | sys2
      · rw [hrun] at h
        exact Except.noConfusion (Option.some.inj h)
      · rw [hrun] at h
        exact ih sys2 sys' h

/-- A user function returning no records (terminates, tolerates empty
batches). -/
def emptyFn : List Record → Except Unit (List Record) := fun _ => .ok []

/-- A stage with nothing to do: empty input, output and tasks tables. -/
def doneStage : StageState :=
  { inq := { rows := []
             columns := []
             nextKey := 1
             uniqueColumn := none
             timeout := 300
             lastTimeout := 0
             conOpen := true
             deleteOnAck := false }
    outq := { rows := []
              columns := []
              nextKey := 1
              uniqueColumn := none
              timeout := 300
              lastTimeout := 0
              conOpen := true
              deleteOnAck := false }
    tasks := { rows := []
               columns := []
               nextKey := 1
               uniqueColumn := none
               timeout := 300
               lastTimeout := 0
               conOpen := true
               deleteOnAck := false }
    batchSize := 1
    inCol := idCol
    outCol := idCol
    userFn := emptyFn
    taskCount := 0 }

def doneSys : JQSys := { stages := [doneStage], now := 0 }

/-- C9 witness: on a drained one-stage system, `run_until_complete`
returns at once, and on return the stage's `size_ready` is 0. -/
theorem driver_quiescence_witness : sizeReadySt doneStage = 0 :=
  driver_quiescence 1 doneSys { stages := [doneStage], now := 1 } rfl doneStage
    (List.mem_singleton_self _)

/-- A single pending (`INITED`) input row. -/
def badRow : AQRow := { key := 1, timestamp := 0, status := AckStatus.inited, fields := [] }

/-- A stage that can never quiesce: one pending input row, an empty output
table, and two task rows stuck at `ACKED` (exactly what failed task
attempts leave behind, see the C3 theorems; the tables persist on disk
across runs).  `ACKED` counts toward `active()`, so `run_once` finds
`need = 1 < active = 2` and never submits a task; its (total,
empty-tolerant) user function is never even called, and `size_ready`
stays 1 forever. -/
def badStage : StageState :=
  { inq := { rows := [badRow]
             columns := []
             nextKey := 2
             uniqueColumn := none
             timeout := 300
             lastTimeout := 0
             conOpen := true
             deleteOnAck := false }
    outq := { rows := []
              columns := []
              nextKey := 1
              uniqueColumn := none
              timeout := 300
              lastTimeout := 0
              conOpen := true
              deleteOnAck := false }
    tasks := { rows := [{ key := 1, timestamp := 0, status := AckStatus.acked, fields := [] },
                        { key := 2, timestamp := 0, status := AckStatus.acked, fields := [] }]
               columns := [tiKey]
               nextKey := 3
               uniqueColumn := none
               timeout := 300
               lastTimeout := 0
               conOpen := true
               deleteOnAck := false }
    batchSize := 1
    inCol := idCol
    outCol := idCol
    userFn := emptyFn
    taskCount := 2 }

def badSys : JQSys := { stages := [badStage], now := 0 }

/-- The invariant that keeps `badSys`-like systems spinning: one
still-ready input row, no output row, and two stuck-`ACKED` task rows. -/
def BadInv (sys : JQSys) : Prop :=
  ∃ st, sys.stages = [st] ∧
    st.inq.rows = [badRow] ∧
    st.outq.rows = [] ∧
    st.tasks.rows.length = 2 ∧
    ∀ r ∈ st.tasks.rows, r.status = AckStatus.acked

theorem applyTimeout_rows_map (q : AQ) (n : Int) :
    (applyTimeout q n).rows = q.rows ∨
    (applyTimeout q n).rows = q.rows.map (fun r =>
      if r.status = AckStatus.unack ∧ r.timestamp < n - q.timeout
      then { r with status := AckStatus.ready } else r) := by
  unfold applyTimeout
  split_ifs
  · exact Or.inl rfl
  · exact Or.inl rfl
  · exact Or.inr rfl

theorem sweep_rows_eq (q : AQ) (n : Int) (hr : q.rows = [badRow]) :
    (applyTimeout q n).rows = [badRow] := by
  rcases applyTimeout_rows_map q n with h | h
  · rw [h, hr]
  · rw [h, hr, List.map_cons, List.map_nil]
    rw [if_neg]
    intro hc
    exact absurd hc.1 (by decide)

theorem sweep_tasks_facts (q : AQ) (n : Int) (h2 : q.rows.length = 2)
    (h5 : ∀ r ∈ q.rows, r.status = AckStatus.acked) :
    (applyTimeout q n).rows.length = 2 ∧
      ∀ r ∈ (applyTimeout q n).rows, r.status = AckStatus.acked := by
  rcases applyTimeout_rows_map q n with h | h
  · rw [h]
    exact ⟨h2, h5⟩
  · rw [h]
    refine ⟨by rw [List.length_map]; exact h2, ?_⟩
    intro r hr
    obtain ⟨r0, hr0, rfl⟩ := List.mem_map.mp hr
    rw [if_neg]
    · exact h5 r0 hr0
    · intro hc
      exact absurd ((h5 r0 hr0).symm.trans hc.1) (by decide)

theorem sizeReady_badRow (inq outq : AQ) (hin : inq.rows = [badRow])
    (hout : outq.rows = []) (ic oc : Str) : sizeReadyAQ inq outq ic oc = 1 := by
  rw [sizeReadyAQ, hin]
  have hpred : readyUnjoinedB outq ic oc badRow = true := by
    rw [readyUnjoinedB, hout]
    simp only [List.any_nil, Bool.not_false, Bool.and_true]
    decide
  simp [hpred]

theorem active_two (tq : AQ) (h2 : tq.rows.length = 2)
    (h5 : ∀ r ∈ tq.rows, r.status = AckStatus.acked) : activeAQ tq = 2 := by
  rw [activeAQ, ← h2]
  rw [List.countP_eq_length]
  intro r hr
  rw [h5 r hr]
  decide

theorem taskIters_bad (st : StageState) (now : Int)
    (hin : st.inq.rows = [badRow]) (hout : st.outq.rows = [])
    (h2 : st.tasks.rows.length = 2)
    (h5 : ∀ r ∈ st.tasks.rows, r.status = AckStatus.acked) :
    taskIters st now = 0 := by
  have hd : sizeReadyAQ (applyTimeout st.inq (now + 1)) st.outq st.inCol st.outCol = 1 :=
    sizeReady_badRow _ _ (sweep_rows_eq st.inq (now + 1) hin) hout _ _
  have ha : activeAQ (applyTimeout st.tasks (now + 2)) = 2 := by
    obtain ⟨x2, x5⟩ := sweep_tasks_facts st.tasks (now + 2) h2 h5
    exact active_two _ x2 x5
  simp only [taskIters]
  rw [hd, ha]
  rw [if_neg]
  intro hge
  have hlt : (1 + st.batchSize - 1) / st.batchSize < 2 := by
    have hb : 1 + st.batchSize - 1 = st.batchSize := by omega
    rw [hb]
    rcases st.batchSize with _ | m
    · simp
    · rw [Nat.div_self (Nat.succ_pos m)]
      omega
  omega

theorem runStage_bad (st : StageState) (now : Int)
    (hin : st.inq.rows = [badRow]) (hout : st.outq.rows = [])
    (h2 : st.tasks.rows.length = 2)
    (h5 : ∀ r ∈ st.tasks.rows, r.status = AckStatus.acked) :
    runStage st now = .ok ({ st with
        inq := applyTimeout st.inq (now + 1)
        tasks := applyTimeout st.tasks (now + 2) },
      now + 2) := by
  rw [runStage, taskIters_bad st now hin hout h2 h5]
  rfl

theorem check_bad (sys : JQSys) (h : BadInv sys) :
    (checkCompleteTimed sys).1 = false ∧ BadInv (checkCompleteTimed sys).2 := by
  obtain ⟨st, hs, hin, hout, h2, h5⟩ := h
  have hsz : sizeReadySt { st with inq := applyTimeout st.inq (sys.now + 1) } = 1 :=
    sizeReady_badRow _ _ (sweep_rows_eq st.inq _ hin) hout _ _
  constructor
  · show (checkStages sys.stages sys.now).1 = false
    rw [hs]
    simp only [checkStages]
    rw [hsz]
    rfl
  · refine ⟨{ st with inq := applyTimeout st.inq (sys.now + 1) }, ?_,
      sweep_rows_eq st.inq _ hin, hout, h2, h5⟩
    show (checkStages sys.stages sys.now).2.1 = _
    rw [hs]
    rfl

theorem runOnce_bad (sys : JQSys) (h : BadInv sys) :
    ∃ sys', runOnceSys sys = .ok sys' ∧ BadInv sys' := by
  obtain ⟨st, hs, hin, hout, h2, h5⟩ := h
  have hst := runStage_bad st sys.now hin hout h2 h5
  have hrs : runStages [st] sys.now = .ok ([{ st with
      inq := applyTimeout st.inq (sys.now + 1)
      tasks := applyTimeout st.tasks (sys.now + 2) }], sys.now + 2) := by
    show (match runStage st sys.now with
      | Except.error e => Except.error e
      | Except.ok (st', n') =>
        match runStages [] n' with
        | Except.error e => Except.error e
        | Except.ok (rest', n'') => Except.ok (st' :: rest', n'')) = _
    rw [hst]
    rfl
  refine ⟨{ stages := [{ st with
      inq := applyTimeout st.inq (sys.now + 1)
      tasks := applyTimeout st.tasks (sys.now + 2) }], now := sys.now + 2 }, ?_, ?_⟩
  · rw [runOnceSys, hs, hrs]
  · exact ⟨_, rfl, sweep_rows_eq st.inq _ hin, hout,
      (sweep_tasks_facts st.tasks _ h2 h5).1, (sweep_tasks_facts st.tasks _ h2 h5).2⟩

theorem bad_never : ∀ (fuel : Nat) (sys : JQSys), BadInv sys →
    runUntilComplete fuel sys = none := by
  intro fuel
  induction fuel with
  | zero => intro sys _; rfl
  | succ fuel ih =>
    intro sys h
    obtain ⟨hfalse, hinv2⟩ := check_bad sys h
    rw [runUntilComplete, if_neg (by rw [hfalse]; exact Bool.false_ne_true)]
    obtain ⟨sys', hrun, hinv'⟩ := runOnce_bad _ hinv2
    rw [hrun]
    exact ih sys' hinv'

/-- C9 counterexample: `badSys` is a JobQueue whose (only) user function is
total and tolerates empty batches, yet `run_until_complete` never returns:
for every fuel the loop is still running.  The two stuck-`ACKED` task rows
keep `active() = 2` above `need = 1`, so `run_once` submits nothing while
`size_ready` stays 1 — refuting the claimed termination. -/
theorem driver_nontermination :
    ¬ ∃ fuel r, runUntilComplete fuel badSys = some r := by
  rintro ⟨fuel, r, h⟩
  rw [bad_never fuel badSys ⟨badStage, rfl, rfl, rfl, rfl, by decide⟩] at h
  cases h
